import Mathlib

/-!
Verification of the two-tier (VIP / Normal) order fulfillment pipeline.

The definitions below are a shallow embedding of the Python sources:
`src/app/domain.py` (Order), `src/app/queues.py` (PendingQueue),
`src/app/robots.py` (Robot worker loop), and `src/app/manager.py` (Manager).
Python deques become Lean lists (head at the left), raising `ValueError`
becomes returning `Except.error`, and the worker threads become a labeled
transition relation `Step` over a whole-system state `Sys`.
-/

namespace OrderSystem

/-- `Order` from `src/app/domain.py`: an id, a type string
(`VIP` or `NORMAL` when valid) and a status string
(`PENDING`, `PROCESSING` or `COMPLETE`). -/
structure Order where
  id : Nat
  type : String
  status : String
deriving DecidableEq, Repr

/-- Internal state of `PendingQueue` from `src/app/queues.py`:
two deques, one per priority class, with the queue head at the left. -/
structure PendingQueue where
  vip : List Order
  normal : List Order
deriving DecidableEq, Repr

/-- A fresh `PendingQueue.__init__` state: both deques empty. -/
def emptyQueue : PendingQueue := ⟨[], []⟩

/-- `PendingQueue.put`: validates the insertion end and the order type,
then inserts into the deque matching `order.type` at the requested end.
Raising `ValueError` is modelled as `Except.error` (the queue state is
not part of the error, mirroring that an exception leaves it unchanged). -/
def put (q : PendingQueue) (o : Order) (e : String) : Except String PendingQueue :=
  if e = "left" ∨ e = "right" then
    if o.type = "VIP" ∨ o.type = "NORMAL" then
      if o.type = "VIP" then
        if e = "left" then .ok { q with vip := o :: q.vip }
        else .ok { q with vip := q.vip ++ [o] }
      else
        if e = "left" then .ok { q with normal := o :: q.normal }
        else .ok { q with normal := q.normal ++ [o] }
    else .error "order.type must be VIP or NORMAL"
  else .error "end must be left or right"

/-- `PendingQueue.put_vip`: overwrites `order.type` with `"VIP"`
(the source comment says 明确覆盖类型, i.e. explicitly override the type)
and then delegates to `put`. -/
def putVip (q : PendingQueue) (o : Order) (e : String) : Except String PendingQueue :=
  put q { o with type := "VIP" } e

/-- `PendingQueue.put_normal`: overwrites `order.type` with `"NORMAL"`
and then delegates to `put`. -/
def putNormal (q : PendingQueue) (o : Order) (e : String) : Except String PendingQueue :=
  put q { o with type := "NORMAL" } e

/-- `PendingQueue.get_next` with `block=False`: pop the VIP head if the
VIP deque is non-empty, otherwise the Normal head, otherwise `none`. -/
def getNext (q : PendingQueue) : Option (Order × PendingQueue) :=
  match q.vip with
  | o :: rest => some (o, { q with vip := rest })
  | [] =>
    match q.normal with
    | o :: rest => some (o, { q with normal := rest })
    | [] => none

/-- `PendingQueue.get_vip` with `block=False`: validates the end, then
pops from the chosen end of the VIP deque if non-empty. -/
def getVip (q : PendingQueue) (e : String) : Except String (Option (Order × PendingQueue)) :=
  if e = "left" ∨ e = "right" then
    match q.vip with
    | [] => .ok none
    | o :: rest =>
      if e = "left" then .ok (some (o, { q with vip := rest }))
      else
        match q.vip.getLast? with
        | some x => .ok (some (x, { q with vip := q.vip.dropLast }))
        | none => .ok none
  else .error "end must be left or right"

/-- `PendingQueue.get_normal` with `block=False`: validates the end, then
pops from the chosen end of the Normal deque if non-empty. -/
def getNormal (q : PendingQueue) (e : String) : Except String (Option (Order × PendingQueue)) :=
  if e = "left" ∨ e = "right" then
    match q.normal with
    | [] => .ok none
    | o :: rest =>
      if e = "left" then .ok (some (o, { q with normal := rest }))
      else
        match q.normal.getLast? with
        | some x => .ok (some (x, { q with normal := q.normal.dropLast }))
        | none => .ok none
  else .error "end must be left or right"

/-- `PendingQueue.return_to_tail`: validates the order type, then appends
the order at the tail of the deque matching its type. -/
def returnToTail (q : PendingQueue) (o : Order) : Except String PendingQueue :=
  if o.type = "VIP" ∨ o.type = "NORMAL" then
    if o.type = "VIP" then .ok { q with vip := q.vip ++ [o] }
    else .ok { q with normal := q.normal ++ [o] }
  else .error "order.type must be VIP or NORMAL"

/-- `PendingQueue.return_to_head`: validates the order type, then prepends
the order at the head of the deque matching its type. -/
def returnToHead (q : PendingQueue) (o : Order) : Except String PendingQueue :=
  if o.type = "VIP" ∨ o.type = "NORMAL" then
    if o.type = "VIP" then .ok { q with vip := o :: q.vip }
    else .ok { q with normal := o :: q.normal }
  else .error "order.type must be VIP or NORMAL"

/-- `PendingQueue.peek_next`: the VIP head if any, else the Normal head. -/
def peekNext (q : PendingQueue) : Option Order :=
  match q.vip with
  | o :: _ => some o
  | [] => q.normal.head?

/-- `PendingQueue.size_total`. -/
def sizeTotal (q : PendingQueue) : Nat := q.vip.length + q.normal.length

/-- `PendingQueue.is_empty`. -/
def isEmptyQ (q : PendingQueue) : Bool := q.vip.isEmpty && q.normal.isEmpty

/-- The cancellation branch of `Robot._run` (src/app/robots.py lines
106-116): set the held order back to `PENDING`, then requeue it at the
head when the stop requested head-requeue, else at the tail. Returns the
requeue outcome together with the reset order. -/
def robotCancelRequeue (q : PendingQueue) (o : Order) (toHead : Bool) :
    Except String PendingQueue × Order :=
  let o2 := { o with status := "PENDING" }
  ((if toHead then returnToHead q o2 else returnToTail q o2), o2)

/-- The `finally` cleanup of `Robot._run`: if a still-held order has not
reached `COMPLETE`, reset it to `PENDING` and requeue it (head or tail per
the recorded preference); a requeue exception is swallowed, leaving the
queue unchanged. A `COMPLETE` held order is left alone. -/
def robotFinalCleanup (q : PendingQueue) (o : Order) (toHead : Bool) : PendingQueue :=
  if o.status = "COMPLETE" then q
  else
    match (if toHead then returnToHead q { o with status := "PENDING" }
           else returnToTail q { o with status := "PENDING" }) with
    | .ok q2 => q2
    | .error _ => q

/-! ## Manager (src/app/manager.py) -/

/-- The manager-side record of one `Robot` it tracks (thread behaviour is
modelled separately by the `Sys` transition system below). -/
structure BotRec where
  botId : Nat
deriving DecidableEq, Repr

/-- The point-in-time aggregate built by `Manager.status`. -/
structure StatusSnap where
  vip : List Order
  normal : List Order
  vipSize : Nat
  normalSize : Nat
  totalSize : Nat
  bots : List Nat
  completedCount : Nat
  completedIds : List Nat
deriving DecidableEq, Repr

/-- The structured result dictionary returned by `Manager.handle_cmd` and
its helpers; every Python dict key becomes an optional field, absent keys
default to `none`/`false`. -/
structure CmdResult where
  ok : Bool
  cmd : Option String := none
  dataText : Option String := none
  dataStatus : Option StatusSnap := none
  dataClear : Bool := false
  dataExit : Bool := false
  order : Option Order := none
  bot : Option Nat := none
  botId : Option Nat := none
  error : Option String := none
  usage : Option String := none
deriving DecidableEq, Repr

/-- `Manager` state: the queue, the tracked bots, the two id counters and
the completed-orders list appended by the completion callback. -/
structure Manager where
  queue : PendingQueue
  bots : List BotRec
  nextOrderId : Nat
  nextBotId : Nat
  completed : List Order
deriving DecidableEq, Repr

/-- `Manager.__init__`: fresh queue, no bots, both counters start at 1. -/
def initManager : Manager := ⟨emptyQueue, [], 1, 1, []⟩

/-- `Manager.help_text` (content abbreviated; only its identity matters
to the claims, which compare the usage field against this constant). -/
def helpText : String :=
  "Commands: new-normal | nn, new-vip | nv, +bot | add-bot, -bot | remove-bot, clear | cls, status, help | h | ?, exit | quit"

/-- `Manager.new_order`: take the next order id, bump the counter, build a
`PENDING` order and enqueue it at the tail via `put_vip` / `put_normal`.
Those calls always succeed for the class strings the manager passes; the
error branch mirrors an (unreachable) propagated exception. -/
def newOrder (m : Manager) (t : String) : Manager × CmdResult :=
  let oid := m.nextOrderId
  let o : Order := ⟨oid, t, "PENDING"⟩
  let m2 := { m with nextOrderId := oid + 1 }
  match (if t = "VIP" then putVip m.queue o "right" else putNormal m.queue o "right") with
  | .ok q2 =>
    ({ m2 with queue := q2 },
     { ok := true,
       order := some ⟨oid, if t = "VIP" then "VIP" else "NORMAL", "PENDING"⟩ })
  | .error msg => (m2, { ok := false, error := some msg })

/-- `Manager.add_bot`: take the next bot id, bump the counter, track and
start a new robot (its thread is modelled by the `Sys` system below). -/
def addBotM (m : Manager) : Manager × CmdResult :=
  let bid := m.nextBotId
  ({ m with bots := m.bots ++ [⟨bid⟩], nextBotId := bid + 1 },
   { ok := true, bot := some bid })

/-- `Manager.remove_bot`: with no bots return `none` and leave the state
untouched, else pop the most recently created bot and stop it with
head-requeue (the requeue itself happens in the robot thread, modelled by
the `Sys` system). -/
def removeBotM (m : Manager) : Manager × Option CmdResult :=
  match m.bots.getLast? with
  | none => (m, none)
  | some b =>
    ({ m with bots := m.bots.dropLast },
     some { ok := true, botId := some b.botId })

/-- `Manager.status`: queue snapshot clamped to 50 per class, bot ids,
completed count and the last 50 completed ids. -/
def statusM (m : Manager) : StatusSnap :=
  { vip := m.queue.vip.take 50,
    normal := m.queue.normal.take 50,
    vipSize := m.queue.vip.length,
    normalSize := m.queue.normal.length,
    totalSize := m.queue.vip.length + m.queue.normal.length,
    bots := m.bots.map (fun b => b.botId),
    completedCount := m.completed.length,
    completedIds := (m.completed.map (fun o => o.id)).drop (m.completed.length - 50) }

/-- Python `str.strip` on ASCII whitespace. -/
def isPyWS (c : Char) : Bool :=
  c = ' ' || c = '\t' || c = '\n' || c = '\r' || c = '\x0b' || c = '\x0c'

/-- `line.strip()`: drop leading and trailing whitespace. -/
def trimStr (s : String) : String :=
  ⟨((s.data.dropWhile isPyWS).reverse.dropWhile isPyWS).reverse⟩

/-- `line.lower()`: lowercase every character. -/
def lowerStr (s : String) : String := ⟨s.data.map Char.toLower⟩

/-- `Manager.handle_cmd`: trim and lowercase the line, then dispatch;
empty and unrecognized commands yield a failure result with an error
message plus the usage text, leaving the manager untouched. -/
def handleCmd (m : Manager) (line : String) : Manager × CmdResult :=
  let cmd := lowerStr (trimStr line)
  if cmd = "" then
    (m, { ok := false, cmd := some cmd, error := some "empty command", usage := some helpText })
  else if cmd = "help" ∨ cmd = "h" ∨ cmd = "?" then
    (m, { ok := true, cmd := some cmd, dataText := some helpText })
  else if cmd = "new-normal" ∨ cmd = "nn" then newOrder m "NORMAL"
  else if cmd = "new-vip" ∨ cmd = "nv" then newOrder m "VIP"
  else if cmd = "+bot" ∨ cmd = "add-bot" then addBotM m
  else if cmd = "-bot" ∨ cmd = "remove-bot" then
    match removeBotM m with
    | (m2, some r) => (m2, r)
    | (m2, none) => (m2, { ok := false, cmd := some cmd, error := some "no bot to remove" })
  else if cmd = "status" then
    (m, { ok := true, cmd := some cmd, dataStatus := some (statusM m) })
  else if cmd = "clear" ∨ cmd = "cls" then
    (m, { ok := true, cmd := some cmd, dataClear := true })
  else if cmd = "exit" ∨ cmd = "quit" then
    (m, { ok := true, cmd := some cmd, dataExit := true })
  else
    (m, { ok := false, cmd := some cmd, error := some ("unknown command: " ++ cmd),
          usage := some helpText })

/-- The commands `handle_cmd` recognizes (lowercased). -/
def recognizedCmds : List String :=
  ["help", "h", "?", "new-normal", "nn", "new-vip", "nv", "+bot", "add-bot",
   "-bot", "remove-bot", "status", "clear", "cls", "exit", "quit"]

/-! ## Whole-system transition model

`Robot` threads (src/app/robots.py) run concurrently against one shared
`PendingQueue`; the manager enqueues orders and starts/stops robots.  We
model the interleaved executions as a small-step relation `Step` over a
global state `Sys`.  Each constructor is one atomic effect of the source
code: creating an order, starting a bot, requesting a stop, a bot's claim
of an order (`get_next` returning it and the `BUSY`/`PROCESSING` marking),
natural completion with the callback, cancellation mid-processing, the
`finally` cleanup on an abnormal exit, and an idle bot observing a stop. -/

/-- One robot's state visible to the model: its lifecycle string
(`IDLE`, `BUSY` or `STOPPED`), the currently held order, the stop event
and the recorded requeue-position preference. -/
structure Bot where
  botId : Nat
  state : String
  current : Option Order
  stopRequested : Bool
  requeueHead : Bool
deriving DecidableEq, Repr

/-- Global state: the shared queue, the robots ever started (a stopped
robot keeps its slot; the manager merely drops its handle), the orders
that reached `COMPLETE`, the callback-recorded completed ids, the ids of
all orders ever created and the two id counters. -/
structure Sys where
  queue : PendingQueue
  bots : List Bot
  done : List Order
  completedIds : List Nat
  created : List Nat
  nextOrderId : Nat
  nextBotId : Nat
deriving DecidableEq, Repr

/-- The initial system: fresh manager, no bots, no orders. -/
def initSys : Sys := ⟨emptyQueue, [], [], [], [], 1, 1⟩

/-- Effect of `Manager.new_order`: build a `PENDING` order with the next
id and enqueue it at the tail of its class (`put_vip` / `put_normal`). -/
def enqueueStep (s : Sys) (t : String) : Sys :=
  let o : Order := ⟨s.nextOrderId, t, "PENDING"⟩
  match (if t = "VIP" then putVip s.queue o "right" else putNormal s.queue o "right") with
  | .ok q2 =>
    { s with queue := q2, created := s.created ++ [o.id], nextOrderId := s.nextOrderId + 1 }
  | .error _ => s

/-- Effect of `Manager.add_bot`: start one robot in `IDLE` with no held
order and no stop requested. -/
def addBotStep (s : Sys) : Sys :=
  { s with bots := s.bots ++ [⟨s.nextBotId, "IDLE", none, false, false⟩],
           nextBotId := s.nextBotId + 1 }

/-- Effect of `Robot.stop`: record the requeue preference and set the
stop event of the bot at the given position. -/
def stopReqStep (s : Sys) (pre : List Bot) (b : Bot) (post : List Bot) (toHead : Bool) : Sys :=
  { s with bots := pre ++ { b with stopRequested := true, requeueHead := toHead } :: post }

/-- Effect of the claim in `Robot._run`: `get_next` pops an order, the
bot turns `BUSY`, holds it and marks it `PROCESSING`. -/
def claimStep (s : Sys) (pre : List Bot) (b : Bot) (post : List Bot)
    (o : Order) (q2 : PendingQueue) : Sys :=
  { s with queue := q2,
           bots := pre ++ { b with state := "BUSY",
                                   current := some { o with status := "PROCESSING" } } :: post }

/-- Effect of natural completion in `Robot._run`: mark the order
`COMPLETE`, run the completion callback (which appends the id to the
manager's completed list unless it raises; `cbOk = false` models a raised
and swallowed callback exception), clear the held order, and return to
`IDLE` unless a stop was observed, in which case `STOPPED`. -/
def completeStep (s : Sys) (pre : List Bot) (b : Bot) (post : List Bot)
    (o : Order) (cbOk : Bool) : Sys :=
  let o2 := { o with status := "COMPLETE" }
  { s with bots := pre ++ { b with current := none,
                                   state := if b.stopRequested then "STOPPED" else "IDLE" } :: post,
           done := s.done ++ [o2],
           completedIds := if cbOk then s.completedIds ++ [o2.id] else s.completedIds }

/-- Effect of mid-processing cancellation in `Robot._run`: the order was
reset to `PENDING` and requeued (head or tail per the recorded
preference), the bot clears it and turns `STOPPED`. -/
def cancelStep (s : Sys) (pre : List Bot) (b : Bot) (post : List Bot)
    (q2 : PendingQueue) : Sys :=
  { s with queue := q2,
           bots := pre ++ { b with current := none, state := "STOPPED" } :: post }

/-- Effect of the `finally` cleanup when `Robot._run` exits abnormally
(exception or external termination) while holding an order: the order is
handed to `robotFinalCleanup` and the hold is cleared (the lifecycle
string is left as-is, matching the skipped post-loop assignment). -/
def crashStep (s : Sys) (pre : List Bot) (b : Bot) (post : List Bot) (o : Order) : Sys :=
  { s with queue := robotFinalCleanup s.queue o b.requeueHead,
           bots := pre ++ { b with current := none } :: post }

/-- Effect of an idle robot observing the stop event at the loop top:
it exits the loop and records `STOPPED`. -/
def stopIdleStep (s : Sys) (pre : List Bot) (b : Bot) (post : List Bot) : Sys :=
  { s with bots := pre ++ { b with state := "STOPPED" } :: post }

/-- One atomic step of the system, each constructor guarded exactly by
the conditions under which the corresponding source-code effect fires. -/
inductive Step : Sys → Sys → Prop where
  | enqueue (s : Sys) (t : String) (hv : t = "VIP" ∨ t = "NORMAL") :
      Step s (enqueueStep s t)
  | addBot (s : Sys) : Step s (addBotStep s)
  | stopReq (s : Sys) (pre : List Bot) (b : Bot) (post : List Bot) (toHead : Bool)
      (hb : s.bots = pre ++ b :: post) :
      Step s (stopReqStep s pre b post toHead)
  | claim (s : Sys) (pre : List Bot) (b : Bot) (post : List Bot) (o : Order)
      (q2 : PendingQueue) (hb : s.bots = pre ++ b :: post)
      (hidle : b.state = "IDLE") (hq : getNext s.queue = some (o, q2)) :
      Step s (claimStep s pre b post o q2)
  | complete (s : Sys) (pre : List Bot) (b : Bot) (post : List Bot) (o : Order)
      (cbOk : Bool) (hb : s.bots = pre ++ b :: post)
      (hbusy : b.state = "BUSY") (hcur : b.current = some o) :
      Step s (completeStep s pre b post o cbOk)
  | cancel (s : Sys) (pre : List Bot) (b : Bot) (post : List Bot) (o : Order)
      (q2 : PendingQueue) (hb : s.bots = pre ++ b :: post)
      (hbusy : b.state = "BUSY") (hcur : b.current = some o)
      (hstop : b.stopRequested = true)
      (hq : (robotCancelRequeue s.queue o b.requeueHead).1 = .ok q2) :
      Step s (cancelStep s pre b post q2)
  | crash (s : Sys) (pre : List Bot) (b : Bot) (post : List Bot) (o : Order)
      (hb : s.bots = pre ++ b :: post) (hcur : b.current = some o) :
      Step s (crashStep s pre b post o)
  | stopIdle (s : Sys) (pre : List Bot) (b : Bot) (post : List Bot)
      (hb : s.bots = pre ++ b :: post) (hstop : b.stopRequested = true)
      (hst : b.state = "IDLE") :
      Step s (stopIdleStep s pre b post)

/-- Zero or more steps. -/
inductive Steps : Sys → Sys → Prop where
  | refl (s : Sys) : Steps s s
  | tail {s s2 s3 : Sys} : Steps s s2 → Step s2 s3 → Steps s s3

/-- States reachable from the initial system. -/
def Reachable (s : Sys) : Prop := Steps initSys s

/-- All orders currently tracked by the core, place by place: resident in
the queue, held by a bot, or completed. -/
def allOrders (s : Sys) : List Order :=
  s.queue.vip ++ s.queue.normal ++ s.bots.filterMap (fun b => b.current) ++ s.done

/-- Number of copies of order id `i` across all places. -/
def occ (s : Sys) (i : Nat) : Nat :=
  (allOrders s).countP (fun o => o.id == i)

/-- Copies of id `i` resident in the pending queue. -/
def queueCount (s : Sys) (i : Nat) : Nat :=
  (s.queue.vip ++ s.queue.normal).countP (fun o => o.id == i)

/-- Copies of id `i` held by bots. -/
def heldCount (s : Sys) (i : Nat) : Nat :=
  (s.bots.filterMap (fun b => b.current)).countP (fun o => o.id == i)

/-- Copies of id `i` among completed orders. -/
def doneCount (s : Sys) (i : Nat) : Nat :=
  s.done.countP (fun o => o.id == i)

/-- Order id `i` carries status `st` somewhere in the system. -/
def HasStatus (s : Sys) (i : Nat) (st : String) : Prop :=
  ∃ o, o ∈ allOrders s ∧ o.id = i ∧ o.status = st

/-- The status changes the spec allows in one step: no change,
`PENDING` to `PROCESSING`, `PROCESSING` to `COMPLETE`, or `PROCESSING`
back to `PENDING` on cancellation. -/
def StatusStep (a b : String) : Prop :=
  a = b ∨ (a = "PENDING" ∧ b = "PROCESSING") ∨
    (a = "PROCESSING" ∧ b = "COMPLETE") ∨ (a = "PROCESSING" ∧ b = "PENDING")

/-- The global invariant: ids occur exactly once across the places when
created and never otherwise; created ids stay below the counter; queued
orders are `PENDING`; held orders are `PROCESSING` and their holder is
`BUSY`; completed orders are `COMPLETE`; and every tracked order has a
valid class. -/
def Inv (s : Sys) : Prop :=
  (∀ i, occ s i = if i ∈ s.created then 1 else 0) ∧
  (∀ i ∈ s.created, i < s.nextOrderId) ∧
  (∀ o ∈ s.queue.vip ++ s.queue.normal, o.status = "PENDING") ∧
  (∀ b ∈ s.bots, ∀ o, b.current = some o → o.status = "PROCESSING" ∧ b.state = "BUSY") ∧
  (∀ o ∈ s.done, o.status = "COMPLETE") ∧
  (∀ o ∈ allOrders s, o.type = "VIP" ∨ o.type = "NORMAL")

/-- A concrete order used by witnesses. -/
def exampleOrder : Order := ⟨1, "VIP", "PROCESSING"⟩

/-- A concrete busy robot holding `exampleOrder`, used by witnesses. -/
def exampleBusyBot : Bot := ⟨1, "BUSY", some exampleOrder, false, false⟩

/-- A concrete system state with one busy robot, used by witnesses. -/
def exampleBusySys : Sys := ⟨emptyQueue, [exampleBusyBot], [], [], [1], 2, 2⟩

/-- The witness robot after its completion step. -/
def exampleDoneBot : Bot :=
  { exampleBusyBot with current := none, state := if exampleBusyBot.stopRequested then "STOPPED" else "IDLE" }

/-- The order created first in the witness trace below. -/
def wOrder : Order := ⟨1, "VIP", "PENDING"⟩

/-- Witness trace, step 1: one VIP order enqueued. -/
def wSys1 : Sys := enqueueStep initSys "VIP"

/-- Witness trace, step 2: one idle robot started. -/
def wSys2 : Sys := addBotStep wSys1

/-- The idle robot of the witness trace. -/
def wBot : Bot := ⟨1, "IDLE", none, false, false⟩

/-- Witness trace, step 3: the robot claims the order, which turns
`PROCESSING` and leaves the queue empty. -/
def wSys3 : Sys := claimStep wSys2 [] wBot [] wOrder emptyQueue

/-- The busy robot of the witness trace after the claim. -/
def wBusyBot : Bot := ⟨1, "BUSY", some ⟨1, "VIP", "PROCESSING"⟩, false, false⟩

/-- Witness trace, step 4: the robot completes the order, which turns
`COMPLETE`. -/
def wSys4 : Sys := completeStep wSys3 [] wBusyBot [] ⟨1, "VIP", "PROCESSING"⟩ true

/-- Witness trace, step 5: a further step after completion (a second
robot starts); the completed order must stay `COMPLETE` across it. -/
def wSys5 : Sys := addBotStep wSys4

/-- Queue operations considered by the FIFO claim: a tail insertion
(`put` with the default end, which is also the effect of
`return_to_tail`) and a `get_next` retrieval.  Head-reinsertions are
excluded, exactly as the claim excludes them. -/
inductive QOp where
  | putTail (o : Order)
  | deq
deriving DecidableEq, Repr

/-- Apply one operation; a failed `put` (raised `ValueError`) leaves the
queue unchanged and a `get_next` on an empty queue returns nothing. -/
def stepOp (q : PendingQueue) : QOp → PendingQueue × Option Order
  | .putTail o =>
    match put q o "right" with
    | .ok q2 => (q2, none)
    | .error _ => (q, none)
  | .deq =>
    match getNext q with
    | some (o, q2) => (q2, some o)
    | none => (q, none)

/-- Run a sequence of operations, collecting the dequeued orders in
chronological order. -/
def runOps (q : PendingQueue) : List QOp → PendingQueue × List Order
  | [] => (q, [])
  | op :: ops =>
    match stepOp q op with
    | (q2, none) => runOps q2 ops
    | (q2, some o) => ((runOps q2 ops).1, o :: (runOps q2 ops).2)

/-- The deque of the priority class selected by `c`
(`true` = VIP, `false` = Normal). -/
def classSeq (c : Bool) (q : PendingQueue) : List Order :=
  if c then q.vip else q.normal

/-- The deque of the other priority class. -/
def otherSeq (c : Bool) (q : PendingQueue) : List Order :=
  if c then q.normal else q.vip

/-! ## Supporting lemmas -/

theorem countP_le_one_unique {α : Type} {p : α → Bool} :
    ∀ {l : List α}, l.countP p ≤ 1 → ∀ {a b : α}, a ∈ l → b ∈ l → p a = true → p b = true →
      a = b := by
  intro l
  induction l with
  | nil => intro _ a b ha; cases ha
  | cons x xs ih =>
    intro hc a b ha hb hpa hpb
    rw [List.countP_cons] at hc
    rcases List.mem_cons.mp ha with ha1 | ha2 <;> rcases List.mem_cons.mp hb with hb1 | hb2
    · exact ha1.trans hb1.symm
    · exfalso
      have h1 : 0 < xs.countP p := List.countP_pos_iff.mpr ⟨b, hb2, hpb⟩
      have hx : p x = true := ha1 ▸ hpa
      have hc2 : xs.countP p + 1 ≤ 1 := by simpa [hx] using hc
      omega
    · exfalso
      have h1 : 0 < xs.countP p := List.countP_pos_iff.mpr ⟨a, ha2, hpa⟩
      have hx : p x = true := hb1 ▸ hpb
      have hc2 : xs.countP p + 1 ≤ 1 := by simpa [hx] using hc
      omega
    · have : xs.countP p ≤ 1 := le_trans (Nat.le_add_right _ _) hc
      exact ih this ha2 hb2 hpa hpb

theorem hands_eq_none {bots pre post : List Bot} {b : Bot}
    (hb : bots = pre ++ b :: post) (hc : b.current = none) :
    bots.filterMap (fun x => x.current) =
      pre.filterMap (fun x => x.current) ++ post.filterMap (fun x => x.current) := by
  rw [hb, List.filterMap_append, List.filterMap_cons, hc]

theorem hands_eq_some {bots pre post : List Bot} {b : Bot} {o : Order}
    (hb : bots = pre ++ b :: post) (hc : b.current = some o) :
    bots.filterMap (fun x => x.current) =
      pre.filterMap (fun x => x.current) ++ o :: post.filterMap (fun x => x.current) := by
  rw [hb, List.filterMap_append, List.filterMap_cons, hc]

theorem putVip_right_ok (q : PendingQueue) (o : Order) :
    putVip q o "right" = .ok { q with vip := q.vip ++ [{ o with type := "VIP" }] } := by
  simp [putVip, put]

theorem putNormal_right_ok (q : PendingQueue) (o : Order) :
    putNormal q o "right" = .ok { q with normal := q.normal ++ [{ o with type := "NORMAL" }] } := by
  simp [putNormal, put]

theorem returnToHead_ok_cases {q q2 : PendingQueue} {o : Order}
    (h : returnToHead q o = .ok q2) :
    (o.type = "VIP" ∧ q2 = { q with vip := o :: q.vip }) ∨
      (o.type = "NORMAL" ∧ q2 = { q with normal := o :: q.normal }) := by
  by_cases hv : o.type = "VIP"
  · left
    refine ⟨hv, ?_⟩
    simp [returnToHead, hv] at h
    exact h.symm
  · by_cases hn : o.type = "NORMAL"
    · right
      refine ⟨hn, ?_⟩
      simp [returnToHead, hv, hn] at h
      exact h.symm
    · exfalso
      simp [returnToHead, hv, hn] at h

theorem returnToTail_ok_cases {q q2 : PendingQueue} {o : Order}
    (h : returnToTail q o = .ok q2) :
    (o.type = "VIP" ∧ q2 = { q with vip := q.vip ++ [o] }) ∨
      (o.type = "NORMAL" ∧ q2 = { q with normal := q.normal ++ [o] }) := by
  by_cases hv : o.type = "VIP"
  · left
    refine ⟨hv, ?_⟩
    simp [returnToTail, hv] at h
    exact h.symm
  · by_cases hn : o.type = "NORMAL"
    · right
      refine ⟨hn, ?_⟩
      simp [returnToTail, hv, hn] at h
      exact h.symm
    · exfalso
      simp [returnToTail, hv, hn] at h

theorem getNext_cases {q : PendingQueue} {o : Order} {q2 : PendingQueue}
    (h : getNext q = some (o, q2)) :
    (∃ rest, q.vip = o :: rest ∧ q2 = { q with vip := rest }) ∨
      (∃ rest, q.vip = [] ∧ q.normal = o :: rest ∧ q2 = { q with normal := rest }) := by
  cases hv : q.vip with
  | cons x rest =>
    left
    rw [getNext, hv] at h
    cases h
    exact ⟨rest, rfl, rfl⟩
  | nil =>
    cases hn : q.normal with
    | cons x rest =>
      right
      rw [getNext, hv, hn] at h
      cases h
      exact ⟨rest, rfl, rfl, rfl⟩
    | nil =>
      rw [getNext, hv, hn] at h
      cases h

/-! ## Preservation of the invariant -/

theorem occ_split (s : Sys) (i : Nat) :
    occ s i = (s.queue.vip).countP (fun o => o.id == i) +
      ((s.queue.normal).countP (fun o => o.id == i) +
        ((s.bots.filterMap fun b => b.current).countP (fun o => o.id == i) +
          s.done.countP (fun o => o.id == i))) := by
  simp [occ, allOrders, List.countP_append]

theorem enqueueStep_vip (s : Sys) :
    enqueueStep s "VIP" =
      { s with
          queue := { s.queue with
                       vip := s.queue.vip ++ [⟨s.nextOrderId, "VIP", "PENDING"⟩] },
          created := s.created ++ [s.nextOrderId],
          nextOrderId := s.nextOrderId + 1 } := by
  simp [enqueueStep, putVip_right_ok]

theorem enqueueStep_normal (s : Sys) :
    enqueueStep s "NORMAL" =
      { s with
          queue := { s.queue with
                       normal := s.queue.normal ++ [⟨s.nextOrderId, "NORMAL", "PENDING"⟩] },
          created := s.created ++ [s.nextOrderId],
          nextOrderId := s.nextOrderId + 1 } := by
  simp [enqueueStep, putNormal_right_ok]

theorem inv_enqueue_aux {s : Sys} (h : Inv s) (n : Order)
    (hn : n.id = s.nextOrderId) (hst : n.status = "PENDING")
    (hty : n.type = "VIP" ∨ n.type = "NORMAL") {q2 : PendingQueue}
    (hq : q2 = { s.queue with vip := s.queue.vip ++ [n] } ∨
          q2 = { s.queue with normal := s.queue.normal ++ [n] }) :
    Inv { s with queue := q2, created := s.created ++ [n.id],
                 nextOrderId := s.nextOrderId + 1 } := by
  obtain ⟨h1, h2, h3, h4, h5, h6⟩ := h
  have hfresh : ¬ n.id ∈ s.created := by
    intro hmem
    have := h2 n.id hmem
    omega
  rcases hq with rfl | rfl
  · refine ⟨?_, ?_, ?_, ?_, ?_, ?_⟩
    · intro i
      have hbase := h1 i
      rw [occ_split] at hbase ⊢
      by_cases hi : i = n.id
      · subst hi
        rw [if_neg hfresh] at hbase
        simp [List.countP_append, List.countP_cons]
        omega
      · have hne : (n.id == i) = false := by simp [Ne.symm hi]
        have hmem2 : (i ∈ s.created ++ [n.id]) ↔ (i ∈ s.created) := by simp [hi]
        simpa [List.countP_append, List.countP_cons, hne, hmem2] using hbase
    · intro i hi
      rcases List.mem_append.mp hi with hi | hi
      · have := h2 i hi
        show i < s.nextOrderId + 1
        omega
      · simp only [List.mem_singleton] at hi
        subst hi
        show n.id < s.nextOrderId + 1
        omega
    · intro o ho
      simp only [List.append_assoc, List.mem_append, List.mem_singleton] at ho
      rcases ho with ho | ho | ho
      · exact h3 o (List.mem_append.mpr (Or.inl ho))
      · rw [ho]
        exact hst
      · exact h3 o (List.mem_append.mpr (Or.inr ho))
    · exact h4
    · exact h5
    · intro o ho
      simp only [allOrders, List.append_assoc, List.mem_append, List.mem_singleton] at ho
      rcases ho with ho | ho | ho | ho | ho
      · exact h6 o (by simp [allOrders, ho])
      · rw [ho]; exact hty
      · exact h6 o (by simp [allOrders, ho])
      · exact h6 o (by simp [allOrders, ho])
      · exact h6 o (by simp [allOrders, ho])
  · refine ⟨?_, ?_, ?_, ?_, ?_, ?_⟩
    · intro i
      have hbase := h1 i
      rw [occ_split] at hbase ⊢
      by_cases hi : i = n.id
      · subst hi
        rw [if_neg hfresh] at hbase
        simp [List.countP_append, List.countP_cons]
        omega
      · have hne : (n.id == i) = false := by simp [Ne.symm hi]
        have hmem2 : (i ∈ s.created ++ [n.id]) ↔ (i ∈ s.created) := by simp [hi]
        simpa [List.countP_append, List.countP_cons, hne, hmem2] using hbase
    · intro i hi
      rcases List.mem_append.mp hi with hi | hi
      · have := h2 i hi
        show i < s.nextOrderId + 1
        omega
      · simp only [List.mem_singleton] at hi
        subst hi
        show n.id < s.nextOrderId + 1
        omega
    · intro o ho
      simp only [List.mem_append, List.mem_singleton] at ho
      rcases ho with ho | ho | ho
      · exact h3 o (List.mem_append.mpr (Or.inl ho))
      · exact h3 o (List.mem_append.mpr (Or.inr ho))
      · rw [ho]
        exact hst
    · exact h4
    · exact h5
    · intro o ho
      simp only [allOrders, List.append_assoc, List.mem_append, List.mem_singleton] at ho
      rcases ho with ho | ho | ho | ho | ho
      · exact h6 o (by simp [allOrders, ho])
      · exact h6 o (by simp [allOrders, ho])
      · rw [ho]; exact hty
      · exact h6 o (by simp [allOrders, ho])
      · exact h6 o (by simp [allOrders, ho])

theorem mem_allOrders_of_hand {s : Sys} {pre post : List Bot} {b : Bot} {o : Order}
    (hb : s.bots = pre ++ b :: post) (hcur : b.current = some o) : o ∈ allOrders s := by
  have hh := hands_eq_some hb hcur
  simp [allOrders, hh]

theorem occ_le_one {s : Sys} (h : Inv s) (i : Nat) : occ s i ≤ 1 := by
  obtain ⟨h1, _, _, _, _, _⟩ := h
  rw [h1 i]
  split <;> omega

theorem inv_unique {s : Sys} (h : Inv s) {a b : Order}
    (ha : a ∈ allOrders s) (hb : b ∈ allOrders s) (hid : a.id = b.id) : a = b := by
  have hle : (allOrders s).countP (fun o => o.id == a.id) ≤ 1 := occ_le_one h a.id
  exact countP_le_one_unique hle ha hb (by simp) (by simp [hid])

theorem inv_addBot {s : Sys} (h : Inv s) : Inv (addBotStep s) := by
  obtain ⟨h1, h2, h3, h4, h5, h6⟩ := h
  have hh : (addBotStep s).bots.filterMap (fun x => x.current) =
      s.bots.filterMap (fun x => x.current) := by
    simp [addBotStep, List.filterMap_append]
  refine ⟨?_, h2, h3, ?_, h5, ?_⟩
  · intro i
    have hbase := h1 i
    rw [occ_split] at hbase ⊢
    simpa [addBotStep, hh] using hbase
  · intro b2 hb2 o ho
    rcases List.mem_append.mp hb2 with hb2 | hb2
    · exact h4 b2 hb2 o ho
    · simp only [List.mem_singleton] at hb2
      subst hb2
      cases ho
  · intro o ho
    refine h6 o ?_
    simpa [allOrders, addBotStep, hh] using ho

theorem inv_stopReq {s : Sys} (h : Inv s) {pre post : List Bot} {b : Bot} {toHead : Bool}
    (hb : s.bots = pre ++ b :: post) : Inv (stopReqStep s pre b post toHead) := by
  obtain ⟨h1, h2, h3, h4, h5, h6⟩ := h
  have hh : (pre ++ { b with stopRequested := true, requeueHead := toHead } :: post).filterMap
      (fun x => x.current) = s.bots.filterMap (fun x => x.current) := by
    rw [hb]
    simp [List.filterMap_append, List.filterMap_cons]
  refine ⟨?_, h2, h3, ?_, h5, ?_⟩
  · intro i
    have hbase := h1 i
    rw [occ_split] at hbase ⊢
    simpa [stopReqStep, hh] using hbase
  · intro b2 hb2 o ho
    rcases List.mem_append.mp hb2 with hb2 | hb2
    · exact h4 b2 (hb ▸ List.mem_append.mpr (Or.inl hb2)) o ho
    · rcases List.mem_cons.mp hb2 with hb2 | hb2
      · subst hb2
        simp only at ho
        have := h4 b (hb ▸ List.mem_append.mpr (Or.inr (List.mem_cons_self _ _))) o ho
        exact ⟨this.1, this.2⟩
      · exact h4 b2 (hb ▸ List.mem_append.mpr (Or.inr (List.mem_cons_of_mem _ hb2))) o ho
  · intro o ho
    refine h6 o ?_
    simpa [allOrders, stopReqStep, hh] using ho

theorem inv_stopIdle {s : Sys} (h : Inv s) {pre post : List Bot} {b : Bot}
    (hb : s.bots = pre ++ b :: post) (hst : b.state = "IDLE") :
    Inv (stopIdleStep s pre b post) := by
  obtain ⟨h1, h2, h3, h4, h5, h6⟩ := h
  have hh : (pre ++ { b with state := "STOPPED" } :: post).filterMap
      (fun x => x.current) = s.bots.filterMap (fun x => x.current) := by
    rw [hb]
    simp [List.filterMap_append, List.filterMap_cons]
  refine ⟨?_, h2, h3, ?_, h5, ?_⟩
  · intro i
    have hbase := h1 i
    rw [occ_split] at hbase ⊢
    simpa [stopIdleStep, hh] using hbase
  · intro b2 hb2 o ho
    rcases List.mem_append.mp hb2 with hb2 | hb2
    · exact h4 b2 (hb ▸ List.mem_append.mpr (Or.inl hb2)) o ho
    · rcases List.mem_cons.mp hb2 with hb2 | hb2
      · subst hb2
        simp only at ho
        have hbs := h4 b (hb ▸ List.mem_append.mpr (Or.inr (List.mem_cons_self _ _))) o ho
        rw [hst] at hbs
        simp at hbs
      · exact h4 b2 (hb ▸ List.mem_append.mpr (Or.inr (List.mem_cons_of_mem _ hb2))) o ho
  · intro o ho
    refine h6 o ?_
    simpa [allOrders, stopIdleStep, hh] using ho

theorem inv_hand_to_queue {s : Sys} (h : Inv s) {pre post : List Bot} {b b2 : Bot}
    {o : Order} {q2 : PendingQueue}
    (hb : s.bots = pre ++ b :: post) (hcur : b.current = some o)
    (hb2cur : b2.current = none)
    (hq : q2 = { s.queue with vip := { o with status := "PENDING" } :: s.queue.vip } ∨
          q2 = { s.queue with vip := s.queue.vip ++ [{ o with status := "PENDING" }] } ∨
          q2 = { s.queue with normal := { o with status := "PENDING" } :: s.queue.normal } ∨
          q2 = { s.queue with normal := s.queue.normal ++ [{ o with status := "PENDING" }] }) :
    Inv { s with queue := q2, bots := pre ++ b2 :: post } := by
  obtain ⟨h1, h2, h3, h4, h5, h6⟩ := h
  have hh2 : (pre ++ b2 :: post).filterMap (fun x => x.current) =
      pre.filterMap (fun x => x.current) ++ post.filterMap (fun x => x.current) :=
    hands_eq_none rfl hb2cur
  have hmemo : o ∈ allOrders s := mem_allOrders_of_hand hb hcur
  have htyo : o.type = "VIP" ∨ o.type = "NORMAL" := h6 o hmemo
  have hocc : ∀ i, occ { s with queue := q2, bots := pre ++ b2 :: post } i =
      if i ∈ s.created then 1 else 0 := by
    intro i
    have hbase := h1 i
    rw [occ_split] at hbase ⊢
    rw [hands_eq_some hb hcur] at hbase
    simp [List.countP_append, List.countP_cons] at hbase
    rcases hq with rfl | rfl | rfl | rfl <;>
      · simp only [hh2]
        simp [List.countP_append, List.countP_cons]
        omega
  have hhand : ∀ c ∈ pre ++ b2 :: post, ∀ o3 : Order,
      c.current = some o3 → o3.status = "PROCESSING" ∧ c.state = "BUSY" := by
    intro c hc o3 ho3
    rcases List.mem_append.mp hc with hc | hc
    · exact h4 c (hb ▸ List.mem_append.mpr (Or.inl hc)) o3 ho3
    · rcases List.mem_cons.mp hc with hc | hc
      · subst hc
        rw [hb2cur] at ho3
        cases ho3
      · exact h4 c (hb ▸ List.mem_append.mpr (Or.inr (List.mem_cons_of_mem _ hc))) o3 ho3
  have hqsub : ∀ o3 ∈ q2.vip ++ q2.normal,
      o3 = { o with status := "PENDING" } ∨ o3 ∈ s.queue.vip ++ s.queue.normal := by
    intro o3 ho3
    rcases hq with rfl | rfl | rfl | rfl <;>
      · simp only [List.mem_append, List.mem_cons, List.mem_singleton, List.not_mem_nil,
          or_false, false_or] at ho3 ⊢
        tauto
  have hsub : ∀ o3 ∈ allOrders { s with queue := q2, bots := pre ++ b2 :: post },
      o3 = { o with status := "PENDING" } ∨ o3 ∈ allOrders s := by
    intro o3 ho3
    rcases hq with rfl | rfl | rfl | rfl <;>
      · simp only [allOrders, hh2, hands_eq_some hb hcur, List.mem_append, List.mem_cons,
          List.mem_singleton, List.not_mem_nil, or_false, false_or] at ho3 ⊢
        tauto
  have hqstatus : ∀ o3 ∈ q2.vip ++ q2.normal, o3.status = "PENDING" := by
    intro o3 ho3
    rcases hqsub o3 ho3 with rfl | hmem
    · rfl
    · exact h3 o3 hmem
  have htype : ∀ o3 ∈ allOrders { s with queue := q2, bots := pre ++ b2 :: post },
      o3.type = "VIP" ∨ o3.type = "NORMAL" := by
    intro o3 ho3
    rcases hsub o3 ho3 with rfl | hmem
    · exact htyo
    · exact h6 o3 hmem
  exact ⟨hocc, h2, hqstatus, hhand, h5, htype⟩

theorem inv_claim {s : Sys} (h : Inv s) {pre post : List Bot} {b : Bot} {o : Order}
    {q2 : PendingQueue} (hb : s.bots = pre ++ b :: post) (hidle : b.state = "IDLE")
    (hq : getNext s.queue = some (o, q2)) :
    Inv (claimStep s pre b post o q2) := by
  obtain ⟨h1, h2, h3, h4, h5, h6⟩ := h
  have hbmem : b ∈ s.bots := hb ▸ List.mem_append.mpr (Or.inr (List.mem_cons_self _ _))
  have hcurnone : b.current = none := by
    cases hc : b.current with
    | none => rfl
    | some o3 =>
      have hbs := h4 b hbmem o3 hc
      rw [hidle] at hbs
      simp at hbs
  have hh : s.bots.filterMap (fun x => x.current) =
      pre.filterMap (fun x => x.current) ++ post.filterMap (fun x => x.current) :=
    hands_eq_none hb hcurnone
  have hh2 : (claimStep s pre b post o q2).bots.filterMap (fun x => x.current) =
      pre.filterMap (fun x => x.current) ++
        { o with status := "PROCESSING" } :: post.filterMap (fun x => x.current) := by
    simp [claimStep, List.filterMap_append, List.filterMap_cons]
  have hmemo : o ∈ allOrders s := by
    rcases getNext_cases hq with ⟨restv, hv, rfl⟩ | ⟨restn, hv, hn, rfl⟩
    · simp [allOrders, hv]
    · simp [allOrders, hn]
  have hstato : o.status = "PENDING" := by
    rcases getNext_cases hq with ⟨restv, hv, rfl⟩ | ⟨restn, hv, hn, rfl⟩
    · exact h3 o (List.mem_append.mpr (Or.inl (hv ▸ List.mem_cons_self _ _)))
    · exact h3 o (List.mem_append.mpr (Or.inr (hn ▸ List.mem_cons_self _ _)))
  have hsub : ∀ o3 ∈ allOrders (claimStep s pre b post o q2),
      o3 = { o with status := "PROCESSING" } ∨ o3 ∈ allOrders s := by
    intro o3 ho3
    rcases getNext_cases hq with ⟨restv, hv, rfl⟩ | ⟨restn, hv, hn, rfl⟩ <;>
      · simp only [allOrders, claimStep, hh, hv, List.filterMap_append, List.filterMap_cons,
          List.mem_append, List.mem_cons, List.mem_singleton, List.not_mem_nil,
          or_false, false_or] at ho3 ⊢
        try simp only [hn, List.mem_cons] at ho3 ⊢
        tauto
  have hocc : ∀ i, occ (claimStep s pre b post o q2) i = if i ∈ s.created then 1 else 0 := by
    intro i
    have hbase := h1 i
    rw [occ_split] at hbase ⊢
    rw [hh] at hbase
    rcases getNext_cases hq with ⟨restv, hv, rfl⟩ | ⟨restn, hv, hn, rfl⟩
    · rw [hv] at hbase
      simp [List.countP_append, List.countP_cons] at hbase
      simp [claimStep, List.filterMap_append, List.filterMap_cons, List.countP_append,
        List.countP_cons]
      omega
    · rw [hv, hn] at hbase
      simp [List.countP_append, List.countP_cons] at hbase
      simp [claimStep, hv, List.filterMap_append, List.filterMap_cons, List.countP_append,
        List.countP_cons]
      omega
  have hqstatus : ∀ o3 ∈ (claimStep s pre b post o q2).queue.vip ++
      (claimStep s pre b post o q2).queue.normal, o3.status = "PENDING" := by
    intro o3 ho3
    rcases getNext_cases hq with ⟨restv, hv, rfl⟩ | ⟨restn, hv, hn, rfl⟩
    · refine h3 o3 ?_
      simp only [claimStep, List.mem_append] at ho3 ⊢
      rcases ho3 with ho3 | ho3
      · exact Or.inl (hv ▸ List.mem_cons_of_mem _ ho3)
      · exact Or.inr ho3
    · refine h3 o3 ?_
      simp only [claimStep, List.mem_append] at ho3 ⊢
      rcases ho3 with ho3 | ho3
      · exact Or.inl ho3
      · exact Or.inr (hn ▸ List.mem_cons_of_mem _ ho3)
  have hhand : ∀ c ∈ (claimStep s pre b post o q2).bots, ∀ o3 : Order,
      c.current = some o3 → o3.status = "PROCESSING" ∧ c.state = "BUSY" := by
    intro c hc o3 ho3
    simp only [claimStep] at hc
    rcases List.mem_append.mp hc with hc | hc
    · exact h4 c (hb ▸ List.mem_append.mpr (Or.inl hc)) o3 ho3
    · rcases List.mem_cons.mp hc with hc | hc
      · subst hc
        simp only at ho3
        cases ho3
        exact ⟨rfl, rfl⟩
      · exact h4 c (hb ▸ List.mem_append.mpr (Or.inr (List.mem_cons_of_mem _ hc))) o3 ho3
  have htype : ∀ o3 ∈ allOrders (claimStep s pre b post o q2),
      o3.type = "VIP" ∨ o3.type = "NORMAL" := by
    intro o3 ho3
    rcases hsub o3 ho3 with rfl | hmem
    · exact h6 o hmemo
    · exact h6 o3 hmem
  exact ⟨hocc, h2, hqstatus, hhand, h5, htype⟩

theorem inv_complete {s : Sys} (h : Inv s) {pre post : List Bot} {b : Bot} {o : Order}
    {cbOk : Bool} (hb : s.bots = pre ++ b :: post) (hcur : b.current = some o) :
    Inv (completeStep s pre b post o cbOk) := by
  obtain ⟨h1, h2, h3, h4, h5, h6⟩ := h
  have hh := hands_eq_some hb hcur
  have hh2 : (completeStep s pre b post o cbOk).bots.filterMap (fun x => x.current) =
      pre.filterMap (fun x => x.current) ++ post.filterMap (fun x => x.current) := by
    simp [completeStep, List.filterMap_append, List.filterMap_cons]
  have hmemo : o ∈ allOrders s := mem_allOrders_of_hand hb hcur
  have hocc : ∀ i, occ (completeStep s pre b post o cbOk) i =
      if i ∈ s.created then 1 else 0 := by
    intro i
    have hbase := h1 i
    rw [occ_split] at hbase ⊢
    rw [hh] at hbase
    simp [List.countP_append, List.countP_cons] at hbase
    simp [completeStep, List.filterMap_append, List.filterMap_cons, List.countP_append,
      List.countP_cons]
    omega
  have hqstatus : ∀ o3 ∈ (completeStep s pre b post o cbOk).queue.vip ++
      (completeStep s pre b post o cbOk).queue.normal, o3.status = "PENDING" := by
    intro o3 ho3
    exact h3 o3 ho3
  have hhand : ∀ c ∈ (completeStep s pre b post o cbOk).bots, ∀ o3 : Order,
      c.current = some o3 → o3.status = "PROCESSING" ∧ c.state = "BUSY" := by
    intro c hc o3 ho3
    simp only [completeStep] at hc
    rcases List.mem_append.mp hc with hc | hc
    · exact h4 c (hb ▸ List.mem_append.mpr (Or.inl hc)) o3 ho3
    · rcases List.mem_cons.mp hc with hc | hc
      · subst hc
        simp only at ho3
        cases ho3
      · exact h4 c (hb ▸ List.mem_append.mpr (Or.inr (List.mem_cons_of_mem _ hc))) o3 ho3
  have hdone : ∀ o3 ∈ (completeStep s pre b post o cbOk).done, o3.status = "COMPLETE" := by
    intro o3 ho3
    simp only [completeStep, List.mem_append, List.mem_singleton] at ho3
    rcases ho3 with ho3 | ho3
    · exact h5 o3 ho3
    · rw [ho3]
  have htype : ∀ o3 ∈ allOrders (completeStep s pre b post o cbOk),
      o3.type = "VIP" ∨ o3.type = "NORMAL" := by
    intro o3 ho3
    simp only [allOrders, completeStep, List.filterMap_append, List.filterMap_cons,
      List.mem_append, List.mem_cons, List.mem_singleton, List.not_mem_nil, or_false,
      false_or] at ho3
    have : o3 = { o with status := "COMPLETE" } ∨ o3 ∈ allOrders s := by
      simp only [allOrders, hh, List.mem_append, List.mem_cons]
      tauto
    rcases this with rfl | hmem
    · exact h6 o hmemo
    · exact h6 o3 hmem
  exact ⟨hocc, h2, hqstatus, hhand, hdone, htype⟩

/-- The queue produced by a successful cancellation requeue is the old
queue with the `PENDING`-reset order inserted at one end of one class. -/
theorem cancel_q2_shape {q : PendingQueue} {o : Order} {rh : Bool} {q2 : PendingQueue}
    (hq : (robotCancelRequeue q o rh).1 = .ok q2) :
    q2 = { q with vip := { o with status := "PENDING" } :: q.vip } ∨
    q2 = { q with vip := q.vip ++ [{ o with status := "PENDING" }] } ∨
    q2 = { q with normal := { o with status := "PENDING" } :: q.normal } ∨
    q2 = { q with normal := q.normal ++ [{ o with status := "PENDING" }] } := by
  have hq2 : (if rh = true then returnToHead q { o with status := "PENDING" }
      else returnToTail q { o with status := "PENDING" }) = .ok q2 := hq
  cases hrh : rh
  · rw [hrh] at hq2
    simp only [Bool.false_eq_true, if_false] at hq2
    rcases returnToTail_ok_cases hq2 with ⟨hty, rfl⟩ | ⟨hty, rfl⟩
    · exact Or.inr (Or.inl rfl)
    · exact Or.inr (Or.inr (Or.inr rfl))
  · rw [hrh] at hq2
    simp only [if_true] at hq2
    rcases returnToHead_ok_cases hq2 with ⟨hty, rfl⟩ | ⟨hty, rfl⟩
    · exact Or.inl rfl
    · exact Or.inr (Or.inr (Or.inl rfl))

/-- The `finally` cleanup of a held, not yet complete order with a valid
class inserts its `PENDING`-reset copy at one end of one class. -/
theorem crash_q2_shape {q : PendingQueue} {o : Order} {rh : Bool}
    (hnc : ¬ o.status = "COMPLETE") (hty : o.type = "VIP" ∨ o.type = "NORMAL") :
    robotFinalCleanup q o rh =
      { q with vip := { o with status := "PENDING" } :: q.vip } ∨
    robotFinalCleanup q o rh =
      { q with vip := q.vip ++ [{ o with status := "PENDING" }] } ∨
    robotFinalCleanup q o rh =
      { q with normal := { o with status := "PENDING" } :: q.normal } ∨
    robotFinalCleanup q o rh =
      { q with normal := q.normal ++ [{ o with status := "PENDING" }] } := by
  rcases hty with hty | hty <;> cases hrh : rh
  · refine Or.inr (Or.inl ?_)
    simp [robotFinalCleanup, hnc, returnToTail, hty]
  · refine Or.inl ?_
    simp [robotFinalCleanup, hnc, returnToHead, hty]
  · refine Or.inr (Or.inr (Or.inr ?_))
    simp [robotFinalCleanup, hnc, returnToTail, hty]
  · refine Or.inr (Or.inr (Or.inl ?_))
    simp [robotFinalCleanup, hnc, returnToHead, hty]

/-- An order inserted by one of the four requeue shapes is in the queue. -/
theorem mem_of_insert_shape {q q2 : PendingQueue} {o2 : Order}
    (hshape : q2 = { q with vip := o2 :: q.vip } ∨
      q2 = { q with vip := q.vip ++ [o2] } ∨
      q2 = { q with normal := o2 :: q.normal } ∨
      q2 = { q with normal := q.normal ++ [o2] }) :
    o2 ∈ q2.vip ++ q2.normal := by
  rcases hshape with rfl | rfl | rfl | rfl <;> simp

theorem inv_cancel {s : Sys} (h : Inv s) {pre post : List Bot} {b : Bot} {o : Order}
    {q2 : PendingQueue} (hb : s.bots = pre ++ b :: post) (hcur : b.current = some o)
    (hq : (robotCancelRequeue s.queue o b.requeueHead).1 = .ok q2) :
    Inv (cancelStep s pre b post q2) :=
  inv_hand_to_queue h hb hcur rfl (cancel_q2_shape hq)

theorem inv_crash {s : Sys} (h : Inv s) {pre post : List Bot} {b : Bot} {o : Order}
    (hb : s.bots = pre ++ b :: post) (hcur : b.current = some o) :
    Inv (crashStep s pre b post o) := by
  have hbmem : b ∈ s.bots := hb ▸ List.mem_append.mpr (Or.inr (List.mem_cons_self _ _))
  have hstat : o.status = "PROCESSING" := (h.2.2.2.1 b hbmem o hcur).1
  have htyo : o.type = "VIP" ∨ o.type = "NORMAL" :=
    h.2.2.2.2.2 o (mem_allOrders_of_hand hb hcur)
  have hnc : ¬ o.status = "COMPLETE" := by rw [hstat]; simp
  exact inv_hand_to_queue h hb hcur rfl (crash_q2_shape hnc htyo)

theorem inv_init : Inv initSys := by
  refine ⟨?_, ?_, ?_, ?_, ?_, ?_⟩ <;> simp [initSys, occ, allOrders, emptyQueue]

theorem inv_step {s s2 : Sys} (h : Inv s) (hst : Step s s2) : Inv s2 := by
  cases hst with
  | enqueue t hv =>
    rcases hv with rfl | rfl
    · rw [enqueueStep_vip]
      exact inv_enqueue_aux h ⟨s.nextOrderId, "VIP", "PENDING"⟩ rfl rfl (Or.inl rfl)
        (Or.inl rfl)
    · rw [enqueueStep_normal]
      exact inv_enqueue_aux h ⟨s.nextOrderId, "NORMAL", "PENDING"⟩ rfl rfl (Or.inr rfl)
        (Or.inr rfl)
  | addBot => exact inv_addBot h
  | stopReq pre b post toHead hb => exact inv_stopReq h hb
  | claim pre b post o q2 hb hidle hq => exact inv_claim h hb hidle hq
  | complete pre b post o cbOk hb hbusy hcur => exact inv_complete h hb hcur
  | cancel pre b post o q2 hb hbusy hcur hstop hq => exact inv_cancel h hb hcur hq
  | crash pre b post o hb hcur => exact inv_crash h hb hcur
  | stopIdle pre b post hb hstop hst2 => exact inv_stopIdle h hb hst2

theorem steps_inv {s s2 : Sys} (h : Inv s) (hst : Steps s s2) : Inv s2 := by
  induction hst with
  | refl => exact h
  | tail hsteps hstep ih => exact inv_step ih hstep

theorem reachable_inv {s : Sys} (h : Reachable s) : Inv s :=
  steps_inv inv_init h

theorem created_mono_step {s s2 : Sys} (hst : Step s s2) : ∀ i ∈ s.created, i ∈ s2.created := by
  cases hst with
  | enqueue t hv =>
    rcases hv with rfl | rfl
    · rw [enqueueStep_vip]
      intro i hi
      simp [hi]
    · rw [enqueueStep_normal]
      intro i hi
      simp [hi]
  | addBot => exact fun i hi => hi
  | stopReq pre b post toHead hb => exact fun i hi => hi
  | claim pre b post o q2 hb hidle hq => exact fun i hi => hi
  | complete pre b post o cbOk hb hbusy hcur => exact fun i hi => hi
  | cancel pre b post o q2 hb hbusy hcur hstop hq => exact fun i hi => hi
  | crash pre b post o hb hcur => exact fun i hi => hi
  | stopIdle pre b post hb hstop hst2 => exact fun i hi => hi

/-- A held order survives every step: after the step it is still held
(by id), or its `PENDING` reset sits in the queue, or its `COMPLETE`
version sits among the completed orders. -/
theorem hand_not_dropped {s s2 : Sys} (h : Inv s) (hst : Step s s2) {o : Order}
    (ho : o ∈ s.bots.filterMap (fun x => x.current)) :
    (∃ o2, o2.id = o.id ∧ o2 ∈ s2.bots.filterMap (fun x => x.current)) ∨
    { o with status := "PENDING" } ∈ s2.queue.vip ++ s2.queue.normal ∨
    { o with status := "COMPLETE" } ∈ s2.done := by
  obtain ⟨h1, h2, h3, h4, h5, h6⟩ := h
  cases hst with
  | enqueue t hv =>
    rcases hv with rfl | rfl
    · rw [enqueueStep_vip]
      exact Or.inl ⟨o, rfl, ho⟩
    · rw [enqueueStep_normal]
      exact Or.inl ⟨o, rfl, ho⟩
  | addBot =>
    refine Or.inl ⟨o, rfl, ?_⟩
    simpa [addBotStep, List.filterMap_append] using ho
  | stopReq pre b post toHead hb =>
    refine Or.inl ⟨o, rfl, ?_⟩
    rw [hb] at ho
    simp only [stopReqStep, List.filterMap_append, List.filterMap_cons] at ho ⊢
    exact ho
  | stopIdle pre b post hb hstop hst2 =>
    refine Or.inl ⟨o, rfl, ?_⟩
    rw [hb] at ho
    simp only [stopIdleStep, List.filterMap_append, List.filterMap_cons] at ho ⊢
    exact ho
  | claim pre b post o3 q2 hb hidle hq =>
    have hbmem : b ∈ s.bots := hb ▸ List.mem_append.mpr (Or.inr (List.mem_cons_self _ _))
    have hcurnone : b.current = none := by
      cases hc : b.current with
      | none => rfl
      | some o4 =>
        have hbs := h4 b hbmem o4 hc
        rw [hidle] at hbs
        simp at hbs
    rw [hands_eq_none hb hcurnone] at ho
    refine Or.inl ⟨o, rfl, ?_⟩
    simp only [claimStep, List.filterMap_append, List.filterMap_cons, List.mem_append,
      List.mem_cons] at ho ⊢
    tauto
  | complete pre b post o3 cbOk hb hbusy hcur =>
    rw [hands_eq_some hb hcur] at ho
    simp only [List.mem_append, List.mem_cons] at ho
    rcases ho with ho | ho | ho
    · refine Or.inl ⟨o, rfl, ?_⟩
      simp only [completeStep, List.filterMap_append, List.filterMap_cons, List.mem_append]
      exact Or.inl ho
    · subst ho
      refine Or.inr (Or.inr ?_)
      simp [completeStep]
    · refine Or.inl ⟨o, rfl, ?_⟩
      simp only [completeStep, List.filterMap_append, List.filterMap_cons, List.mem_append]
      exact Or.inr ho
  | cancel pre b post o3 q2 hb hbusy hcur hstop hq =>
    rw [hands_eq_some hb hcur] at ho
    simp only [List.mem_append, List.mem_cons] at ho
    rcases ho with ho | ho | ho
    · refine Or.inl ⟨o, rfl, ?_⟩
      simp only [cancelStep, List.filterMap_append, List.filterMap_cons, List.mem_append]
      exact Or.inl ho
    · subst ho
      exact Or.inr (Or.inl (mem_of_insert_shape (cancel_q2_shape hq)))
    · refine Or.inl ⟨o, rfl, ?_⟩
      simp only [cancelStep, List.filterMap_append, List.filterMap_cons, List.mem_append]
      exact Or.inr ho
  | crash pre b post o3 hb hcur =>
    have hbmem : b ∈ s.bots := hb ▸ List.mem_append.mpr (Or.inr (List.mem_cons_self _ _))
    have hstat : o3.status = "PROCESSING" := (h4 b hbmem o3 hcur).1
    have htyo : o3.type = "VIP" ∨ o3.type = "NORMAL" :=
      h6 o3 (mem_allOrders_of_hand hb hcur)
    have hnc : ¬ o3.status = "COMPLETE" := by rw [hstat]; simp
    rw [hands_eq_some hb hcur] at ho
    simp only [List.mem_append, List.mem_cons] at ho
    rcases ho with ho | ho | ho
    · refine Or.inl ⟨o, rfl, ?_⟩
      simp only [crashStep, List.filterMap_append, List.filterMap_cons, List.mem_append]
      exact Or.inl ho
    · subst ho
      exact Or.inr (Or.inl (mem_of_insert_shape (crash_q2_shape hnc htyo)))
    · refine Or.inl ⟨o, rfl, ?_⟩
      simp only [crashStep, List.filterMap_append, List.filterMap_cons, List.mem_append]
      exact Or.inr ho

theorem status_eq_of_mem {s : Sys} (h : Inv s) {i : Nat} {st st2 : String}
    (hh1 : HasStatus s i st) {c2 : Order} (hc2 : c2 ∈ allOrders s) (hc2i : c2.id = i)
    (hc2st : c2.status = st2) : st = st2 := by
  obtain ⟨c1, hc1, hc1i, hc1st⟩ := hh1
  have he := inv_unique h hc1 hc2 (by rw [hc1i, hc2i])
  rw [← hc1st, ← hc2st, he]

theorem claim_sub {s : Sys} {pre post : List Bot} {b : Bot} {o : Order} {q2 : PendingQueue}
    (hb : s.bots = pre ++ b :: post) (hcurnone : b.current = none)
    (hq : getNext s.queue = some (o, q2)) :
    ∀ c ∈ allOrders (claimStep s pre b post o q2),
      c = { o with status := "PROCESSING" } ∨ c ∈ allOrders s := by
  have hh : s.bots.filterMap (fun x => x.current) =
      pre.filterMap (fun x => x.current) ++ post.filterMap (fun x => x.current) :=
    hands_eq_none hb hcurnone
  intro c hc
  rcases getNext_cases hq with ⟨restv, hv, rfl⟩ | ⟨restn, hv, hn, rfl⟩ <;>
    · simp only [allOrders, claimStep, hh, hv, List.filterMap_append, List.filterMap_cons,
        List.mem_append, List.mem_cons, List.mem_singleton, List.not_mem_nil,
        or_false, false_or] at hc ⊢
      try simp only [hn, List.mem_cons] at hc ⊢
      tauto

theorem complete_sub {s : Sys} {pre post : List Bot} {b : Bot} {o : Order} {cbOk : Bool}
    (hb : s.bots = pre ++ b :: post) (hcur : b.current = some o) :
    ∀ c ∈ allOrders (completeStep s pre b post o cbOk),
      c = { o with status := "COMPLETE" } ∨ c ∈ allOrders s := by
  have hh := hands_eq_some hb hcur
  intro c hc
  simp only [allOrders, completeStep, List.filterMap_append, List.filterMap_cons,
    List.mem_append, List.mem_cons, List.mem_singleton, List.not_mem_nil, or_false,
    false_or] at hc
  simp only [allOrders, hh, List.mem_append, List.mem_cons]
  tauto

theorem hand_to_queue_sub {s : Sys} {pre post : List Bot} {b b2 : Bot} {o : Order}
    {q2 : PendingQueue} (hb : s.bots = pre ++ b :: post) (hcur : b.current = some o)
    (hb2cur : b2.current = none)
    (hq : q2 = { s.queue with vip := { o with status := "PENDING" } :: s.queue.vip } ∨
          q2 = { s.queue with vip := s.queue.vip ++ [{ o with status := "PENDING" }] } ∨
          q2 = { s.queue with normal := { o with status := "PENDING" } :: s.queue.normal } ∨
          q2 = { s.queue with normal := s.queue.normal ++ [{ o with status := "PENDING" }] }) :
    ∀ c ∈ allOrders { s with queue := q2, bots := pre ++ b2 :: post },
      c = { o with status := "PENDING" } ∨ c ∈ allOrders s := by
  have hh2 : (pre ++ b2 :: post).filterMap (fun x => x.current) =
      pre.filterMap (fun x => x.current) ++ post.filterMap (fun x => x.current) :=
    hands_eq_none rfl hb2cur
  intro c hc
  rcases hq with rfl | rfl | rfl | rfl <;>
    · simp only [allOrders, hh2, hands_eq_some hb hcur, List.mem_append, List.mem_cons,
        List.mem_singleton, List.not_mem_nil, or_false, false_or] at hc ⊢
      tauto

/-- The status of any tracked order changes across one step only along
the allowed edges: unchanged, `PENDING` to `PROCESSING` at a claim,
`PROCESSING` to `COMPLETE` at completion, or `PROCESSING` back to
`PENDING` at a cancellation or cleanup requeue. -/
theorem status_step {s s2 : Sys} (h : Inv s) (hst : Step s s2) {i : Nat} {st st2 : String}
    (hh1 : HasStatus s i st) (hh2 : HasStatus s2 i st2) : StatusStep st st2 := by
  obtain ⟨c2, hc2mem, hc2i, hc2st⟩ := hh2
  cases hst with
  | enqueue t hv =>
    have hsub : c2 = (⟨s.nextOrderId, t, "PENDING"⟩ : Order) ∨ c2 ∈ allOrders s := by
      rcases hv with rfl | rfl
      · rw [enqueueStep_vip] at hc2mem
        simp only [allOrders, List.mem_append, List.mem_cons, List.mem_singleton,
          List.not_mem_nil, or_false, false_or] at hc2mem ⊢
        tauto
      · rw [enqueueStep_normal] at hc2mem
        simp only [allOrders, List.mem_append, List.mem_cons, List.mem_singleton,
          List.not_mem_nil, or_false, false_or] at hc2mem ⊢
        tauto
    rcases hsub with rfl | hmem
    · exfalso
      obtain ⟨c1, hc1, hc1i, _⟩ := hh1
      have hpos : 0 < occ s i :=
        List.countP_pos_iff.mpr ⟨c1, hc1, by simp [hc1i]⟩
      simp only at hc2i
      have hic : ¬ i ∈ s.created := by
        intro hic
        have := h.2.1 i hic
        omega
      rw [h.1 i, if_neg hic] at hpos
      omega
    · exact Or.inl (status_eq_of_mem h hh1 hmem hc2i hc2st)
  | addBot =>
    have hmem : c2 ∈ allOrders s := by
      simpa [allOrders, addBotStep, List.filterMap_append] using hc2mem
    exact Or.inl (status_eq_of_mem h hh1 hmem hc2i hc2st)
  | stopReq pre b post toHead hb =>
    have hall : allOrders (stopReqStep s pre b post toHead) = allOrders s := by
      simp only [allOrders, stopReqStep]
      rw [hb]
      simp [List.filterMap_append, List.filterMap_cons]
    rw [hall] at hc2mem
    exact Or.inl (status_eq_of_mem h hh1 hc2mem hc2i hc2st)
  | stopIdle pre b post hb hstop hst2 =>
    have hall : allOrders (stopIdleStep s pre b post) = allOrders s := by
      simp only [allOrders, stopIdleStep]
      rw [hb]
      simp [List.filterMap_append, List.filterMap_cons]
    rw [hall] at hc2mem
    exact Or.inl (status_eq_of_mem h hh1 hc2mem hc2i hc2st)
  | claim pre b post o q2 hb hidle hq =>
    have hbmem : b ∈ s.bots := hb ▸ List.mem_append.mpr (Or.inr (List.mem_cons_self _ _))
    have hcurnone : b.current = none := by
      cases hc : b.current with
      | none => rfl
      | some o4 =>
        have hbs := (h.2.2.2.1) b hbmem o4 hc
        rw [hidle] at hbs
        simp at hbs
    rcases claim_sub hb hcurnone hq c2 hc2mem with rfl | hmem
    · have hst2eq : st2 = "PROCESSING" := hc2st.symm
      have hoid : o.id = i := hc2i
      have homem : o ∈ allOrders s := by
        rcases getNext_cases hq with ⟨restv, hv, _⟩ | ⟨restn, hv, hn, _⟩
        · simp [allOrders, hv]
        · simp [allOrders, hn]
      have hopend : o.status = "PENDING" := by
        rcases getNext_cases hq with ⟨restv, hv, _⟩ | ⟨restn, hv, hn, _⟩
        · exact h.2.2.1 o (List.mem_append.mpr (Or.inl (hv ▸ List.mem_cons_self _ _)))
        · exact h.2.2.1 o (List.mem_append.mpr (Or.inr (hn ▸ List.mem_cons_self _ _)))
      have hsteq : st = "PENDING" := by
        rw [status_eq_of_mem h hh1 homem hoid rfl]
        exact hopend
      exact Or.inr (Or.inl ⟨hsteq, hst2eq⟩)
    · exact Or.inl (status_eq_of_mem h hh1 hmem hc2i hc2st)
  | complete pre b post o cbOk hb hbusy hcur =>
    rcases complete_sub hb hcur c2 hc2mem with rfl | hmem
    · have hst2eq : st2 = "COMPLETE" := hc2st.symm
      have hoid : o.id = i := hc2i
      have hbmem : b ∈ s.bots := hb ▸ List.mem_append.mpr (Or.inr (List.mem_cons_self _ _))
      have homem : o ∈ allOrders s := mem_allOrders_of_hand hb hcur
      have hsteq : st = "PROCESSING" := by
        rw [status_eq_of_mem h hh1 homem hoid rfl]
        exact ((h.2.2.2.1) b hbmem o hcur).1
      exact Or.inr (Or.inr (Or.inl ⟨hsteq, hst2eq⟩))
    · exact Or.inl (status_eq_of_mem h hh1 hmem hc2i hc2st)
  | cancel pre b post o q2 hb hbusy hcur hstop hq =>
    rcases hand_to_queue_sub hb hcur rfl (cancel_q2_shape hq) c2 hc2mem with rfl | hmem
    · have hst2eq : st2 = "PENDING" := hc2st.symm
      have hoid : o.id = i := hc2i
      have hbmem : b ∈ s.bots := hb ▸ List.mem_append.mpr (Or.inr (List.mem_cons_self _ _))
      have homem : o ∈ allOrders s := mem_allOrders_of_hand hb hcur
      have hsteq : st = "PROCESSING" := by
        rw [status_eq_of_mem h hh1 homem hoid rfl]
        exact ((h.2.2.2.1) b hbmem o hcur).1
      exact Or.inr (Or.inr (Or.inr ⟨hsteq, hst2eq⟩))
    · exact Or.inl (status_eq_of_mem h hh1 hmem hc2i hc2st)
  | crash pre b post o hb hcur =>
    have hbmem : b ∈ s.bots := hb ▸ List.mem_append.mpr (Or.inr (List.mem_cons_self _ _))
    have hstat : o.status = "PROCESSING" := ((h.2.2.2.1) b hbmem o hcur).1
    have htyo : o.type = "VIP" ∨ o.type = "NORMAL" :=
      h.2.2.2.2.2 o (mem_allOrders_of_hand hb hcur)
    have hnc : ¬ o.status = "COMPLETE" := by rw [hstat]; simp
    rcases hand_to_queue_sub hb hcur rfl (crash_q2_shape hnc htyo) c2 hc2mem with rfl | hmem
    · have hst2eq : st2 = "PENDING" := hc2st.symm
      have hoid : o.id = i := hc2i
      have homem : o ∈ allOrders s := mem_allOrders_of_hand hb hcur
      have hsteq : st = "PROCESSING" := by
        rw [status_eq_of_mem h hh1 homem hoid rfl]
        exact hstat
      exact Or.inr (Or.inr (Or.inr ⟨hsteq, hst2eq⟩))
    · exact Or.inl (status_eq_of_mem h hh1 hmem hc2i hc2st)

theorem created_mono_steps {s s2 : Sys} (hst : Steps s s2) :
    ∀ i ∈ s.created, i ∈ s2.created := by
  induction hst with
  | refl => exact fun i hi => hi
  | tail hsteps hstep ih => exact fun i hi => created_mono_step hstep i (ih i hi)

theorem mem_created_of_hasStatus {s : Sys} (h : Inv s) {i : Nat} {st : String}
    (hh : HasStatus s i st) : i ∈ s.created := by
  obtain ⟨c, hc, hci, _⟩ := hh
  have hpos : 0 < occ s i := List.countP_pos_iff.mpr ⟨c, hc, by simp [hci]⟩
  by_contra hic
  rw [h.1 i, if_neg hic] at hpos
  omega

theorem hasStatus_exists {s : Sys} (h : Inv s) {i : Nat} (hi : i ∈ s.created) :
    ∃ st, HasStatus s i st := by
  have hone : occ s i = 1 := by rw [h.1 i, if_pos hi]
  have hpos : 0 < occ s i := by omega
  obtain ⟨c, hc, hci⟩ := List.countP_pos_iff.mp hpos
  exact ⟨c.status, c, hc, by simpa using hci, rfl⟩

theorem statusStep_complete {st2 : String} (h : StatusStep "COMPLETE" st2) :
    st2 = "COMPLETE" := by
  rcases h with h | ⟨h1, _⟩ | ⟨h1, _⟩ | ⟨h1, _⟩
  · exact h.symm
  · exact absurd h1 (by simp)
  · exact absurd h1 (by simp)
  · exact absurd h1 (by simp)

/-! ## Claim C1: no order is ever lost -/

/-- C1: in every reachable state, each created order has exactly one
copy across the three places — resident in the pending queue (where all
orders have status `PENDING`), held by exactly one worker, or completed —
and whenever a step makes a worker holding an order stop holding it, by
any exit path (completion, cancellation, or the `finally` cleanup after an
exception or external termination), the order is still accounted for:
requeued with status reset to `PENDING`, or completed with status
`COMPLETE`. -/
theorem no_loss_invariant (s : Sys) (h : Reachable s) :
    (∀ i ∈ s.created,
      queueCount s i + heldCount s i + doneCount s i = 1 ∧
      (∀ o ∈ s.queue.vip ++ s.queue.normal, o.status = "PENDING")) ∧
    (∀ s2 o, Step s s2 → o ∈ s.bots.filterMap (fun x => x.current) →
      (∃ o2, o2.id = o.id ∧ o2 ∈ s2.bots.filterMap (fun x => x.current)) ∨
      { o with status := "PENDING" } ∈ s2.queue.vip ++ s2.queue.normal ∨
      { o with status := "COMPLETE" } ∈ s2.done) := by
  have hinv := reachable_inv h
  constructor
  · intro i hi
    constructor
    · have hone : occ s i = 1 := by rw [hinv.1 i, if_pos hi]
      rw [occ_split] at hone
      simp only [queueCount, heldCount, doneCount, List.countP_append]
      omega
    · exact fun o ho => hinv.2.2.1 o ho
  · intro s2 o hstep ho
    exact hand_not_dropped hinv hstep ho

/-- C1 witness: the state reached by creating one VIP order. -/
theorem no_loss_invariant_witness :
    Reachable (enqueueStep initSys "VIP") ∧
    queueCount (enqueueStep initSys "VIP") 1 + heldCount (enqueueStep initSys "VIP") 1 +
      doneCount (enqueueStep initSys "VIP") 1 = 1 := by
  have hr : Reachable (enqueueStep initSys "VIP") :=
    Steps.tail (Steps.refl initSys) (Step.enqueue initSys "VIP" (Or.inl rfl))
  exact ⟨hr, ((no_loss_invariant _ hr).1 1 (by decide)).1⟩

/-! ## Claim C6: COMPLETE is terminal -/

/-- C6: from any reachable state, a single step changes an order's
status only along `PENDING` to `PROCESSING`, `PROCESSING` to `COMPLETE`,
or `PROCESSING` back to `PENDING` on cancellation (or leaves it alone);
and once an order is `COMPLETE`, after any further sequence of steps its
status is still `COMPLETE`. -/
theorem status_transitions (s : Sys) (hr : Reachable s) :
    (∀ s2 i st st2, Step s s2 → HasStatus s i st → HasStatus s2 i st2 →
      StatusStep st st2) ∧
    (∀ s2 i st2, Steps s s2 → HasStatus s i "COMPLETE" → HasStatus s2 i st2 →
      st2 = "COMPLETE") := by
  have hinv := reachable_inv hr
  constructor
  · intro s2 i st st2 hstep hh1 hh2
    exact status_step hinv hstep hh1 hh2
  · intro s2 i st2 hsteps hc
    induction hsteps generalizing st2 with
    | refl =>
      intro hh2
      obtain ⟨c2, hc2mem, hc2i, hc2st⟩ := hh2
      exact (status_eq_of_mem hinv hc hc2mem hc2i hc2st).symm
    | tail hs hstep ih =>
      intro hh2
      have hinvm := steps_inv hinv hs
      have hic : i ∈ s.created := mem_created_of_hasStatus hinv hc
      have hicm := created_mono_steps hs i hic
      obtain ⟨stm, hhm⟩ := hasStatus_exists hinvm hicm
      have hstm : stm = "COMPLETE" := ih stm hhm
      subst hstm
      exact statusStep_complete (status_step hinvm hstep hhm hh2)

/-- C6 witness, exercised along a concrete reachable trace (enqueue a
VIP order, start a robot, claim, complete, start another robot): the
single-step conjunct is applied at the claim step, where order 1 really
holds status `PENDING` before and `PROCESSING` after, yielding the
allowed `PENDING` to `PROCESSING` edge; the terminal conjunct is applied
at the completed state across a further step, where order 1 really holds
status `COMPLETE` on both sides, and forces that later status to be
`COMPLETE`. -/
theorem status_transitions_witness :
    Reachable wSys2 ∧ Step wSys2 wSys3 ∧
    HasStatus wSys2 1 "PENDING" ∧ HasStatus wSys3 1 "PROCESSING" ∧
    StatusStep "PENDING" "PROCESSING" ∧
    Reachable wSys4 ∧ Steps wSys4 wSys5 ∧
    HasStatus wSys4 1 "COMPLETE" ∧ HasStatus wSys5 1 "COMPLETE" ∧
    "COMPLETE" = "COMPLETE" := by
  have hr1 : Steps initSys wSys1 :=
    Steps.tail (Steps.refl initSys) (Step.enqueue initSys "VIP" (Or.inl rfl))
  have hr2 : Steps initSys wSys2 := Steps.tail hr1 (Step.addBot wSys1)
  have hb2 : wSys2.bots = [] ++ wBot :: [] := by decide
  have hq2 : getNext wSys2.queue = some (wOrder, emptyQueue) := by decide
  have hstep3 : Step wSys2 wSys3 := Step.claim wSys2 [] wBot [] wOrder emptyQueue hb2 rfl hq2
  have hr3 : Steps initSys wSys3 := Steps.tail hr2 hstep3
  have hb3 : wSys3.bots = [] ++ wBusyBot :: [] := by decide
  have hstep4 : Step wSys3 wSys4 :=
    Step.complete wSys3 [] wBusyBot [] ⟨1, "VIP", "PROCESSING"⟩ true hb3 rfl rfl
  have hr4 : Steps initSys wSys4 := Steps.tail hr3 hstep4
  have hsteps45 : Steps wSys4 wSys5 := Steps.tail (Steps.refl wSys4) (Step.addBot wSys4)
  have hpend : HasStatus wSys2 1 "PENDING" := ⟨wOrder, by decide, rfl, rfl⟩
  have hproc : HasStatus wSys3 1 "PROCESSING" := ⟨⟨1, "VIP", "PROCESSING"⟩, by decide, rfl, rfl⟩
  have hc4 : HasStatus wSys4 1 "COMPLETE" := ⟨⟨1, "VIP", "COMPLETE"⟩, by decide, rfl, rfl⟩
  have hc5 : HasStatus wSys5 1 "COMPLETE" := ⟨⟨1, "VIP", "COMPLETE"⟩, by decide, rfl, rfl⟩
  refine ⟨hr2, hstep3, hpend, hproc, ?_, hr4, hsteps45, hc4, hc5, ?_⟩
  · exact (status_transitions wSys2 hr2).1 wSys3 1 "PENDING" "PROCESSING" hstep3 hpend hproc
  · exact (status_transitions wSys4 hr4).2 wSys5 1 "COMPLETE" hsteps45 hc4 hc5

/-! ## Claim C8: completion-callback failures are contained -/

/-- C8: when a busy worker holding an order finishes it and the
completion callback raises (modelled by `cbOk = false`), the step is a
normal system step (the exception is not propagated out of the worker's
processing step), the order ends `COMPLETE` among the completed orders
(only the manager's callback record is skipped), and the worker clears
its hold and returns to `IDLE` when no stop was requested, so its loop
continues. -/
theorem callback_exception_contained (s : Sys) (pre post : List Bot) (b : Bot) (o : Order)
    (hb : s.bots = pre ++ b :: post) (hbusy : b.state = "BUSY") (hcur : b.current = some o) :
    Step s (completeStep s pre b post o false) ∧
    { o with status := "COMPLETE" } ∈ (completeStep s pre b post o false).done ∧
    (completeStep s pre b post o false).completedIds = s.completedIds ∧
    (completeStep s pre b post o false).bots =
      pre ++ { b with current := none,
                      state := if b.stopRequested then "STOPPED" else "IDLE" } :: post ∧
    (b.stopRequested = false →
      ∃ b2 ∈ (completeStep s pre b post o false).bots,
        b2.current = none ∧ b2.state = "IDLE") := by
  refine ⟨Step.complete s pre b post o false hb hbusy hcur, by simp [completeStep], rfl,
    rfl, ?_⟩
  intro hsr
  refine ⟨{ b with current := none, state := if b.stopRequested then "STOPPED" else "IDLE" },
    by simp [completeStep], rfl, by simp [hsr]⟩

/-- C8 witness: a concrete busy worker whose callback fails. -/
theorem callback_exception_contained_witness :
    Step exampleBusySys (completeStep exampleBusySys [] exampleBusyBot [] exampleOrder false) ∧
    { exampleOrder with status := "COMPLETE" } ∈
      (completeStep exampleBusySys [] exampleBusyBot [] exampleOrder false).done ∧
    (completeStep exampleBusySys [] exampleBusyBot [] exampleOrder false).completedIds =
      exampleBusySys.completedIds ∧
    (completeStep exampleBusySys [] exampleBusyBot [] exampleOrder false).bots =
      [] ++ exampleDoneBot :: [] ∧
    (exampleBusyBot.stopRequested = false →
      ∃ b2 ∈ (completeStep exampleBusySys [] exampleBusyBot [] exampleOrder false).bots,
        b2.current = none ∧ b2.state = "IDLE") :=
  callback_exception_contained exampleBusySys [] [] exampleBusyBot exampleOrder rfl rfl rfl

/-! ## Claim C2: priority of non-blocking retrieval -/

/-- C2: a non-blocking `get_next` returns the head of the VIP deque when
it is non-empty, otherwise the head of the Normal deque when that is
non-empty, otherwise `none`; consequently, after enqueuing one Normal
order and then one VIP order into an empty queue, a single retrieval
returns the VIP order. -/
theorem getNext_priority_spec (q : PendingQueue) :
    (∀ o rest, q.vip = o :: rest → getNext q = some (o, { q with vip := rest })) ∧
    (∀ o rest, q.vip = [] → q.normal = o :: rest →
      getNext q = some (o, { q with normal := rest })) ∧
    (q.vip = [] → q.normal = [] → getNext q = none) ∧
    (∀ a b q1 q2, a.type = "NORMAL" → b.type = "VIP" →
      put emptyQueue a "right" = .ok q1 → put q1 b "right" = .ok q2 →
      getNext q2 = some (b, q1)) := by
  refine ⟨?_, ?_, ?_, ?_⟩
  · intro o rest hv
    rw [getNext, hv]
  · intro o rest hv hn
    rw [getNext, hv, hn]
  · intro hv hn
    rw [getNext, hv, hn]
  · intro a b q1 q2 hna hvb h1 h2
    have e1 : q1 = { vip := [], normal := [a] } := by
      simp [put, emptyQueue, hna] at h1
      exact h1.symm
    subst e1
    have e2 : q2 = { vip := [b], normal := [a] } := by
      simp [put, hvb] at h2
      exact h2.symm
    subst e2
    rw [getNext]

/-- C2 witness at a concrete queue. -/
theorem getNext_priority_spec_witness :
    getNext { vip := [⟨2, "VIP", "PENDING"⟩], normal := [⟨1, "NORMAL", "PENDING"⟩] } =
      some (⟨2, "VIP", "PENDING"⟩, { vip := [], normal := [⟨1, "NORMAL", "PENDING"⟩] }) :=
  (getNext_priority_spec _).1 ⟨2, "VIP", "PENDING"⟩ [] rfl

/-! ## Claim C4: requeue-to-head round trip -/

/-- C4: after a worker cancels mid-processing with head-requeue, the
order is reset to `PENDING` and prepended to its class deque, so the
immediately following retrieval from that class (with nothing else of
that class enqueued in between) returns exactly that order, with status
`PENDING`, and restores the queue to its pre-requeue state. -/
theorem cancel_head_requeue_roundtrip (q : PendingQueue) (o : Order)
    (hv : o.type = "VIP" ∨ o.type = "NORMAL") :
    ∃ q2, (robotCancelRequeue q o true).1 = .ok q2 ∧
      (robotCancelRequeue q o true).2 = { o with status := "PENDING" } ∧
      (if o.type = "VIP" then getVip q2 "left" else getNormal q2 "left") =
        .ok (some ({ o with status := "PENDING" }, q)) ∧
      ({ o with status := "PENDING" }).status = "PENDING" := by
  rcases hv with hv | hv
  · refine ⟨{ q with vip := { o with status := "PENDING" } :: q.vip }, ?_, rfl, ?_, rfl⟩
    · simp [robotCancelRequeue, returnToHead, hv]
    · simp [hv, getVip]
  · have hnv : ¬ o.type = "VIP" := by simp [hv]
    refine ⟨{ q with normal := { o with status := "PENDING" } :: q.normal }, ?_, rfl, ?_, rfl⟩
    · simp [robotCancelRequeue, returnToHead, hv, hnv]
    · simp [hv, hnv, getNormal]

/-- C4 witness at a concrete queue and order. -/
theorem cancel_head_requeue_roundtrip_witness :
    ∃ q2, (robotCancelRequeue emptyQueue ⟨7, "VIP", "PROCESSING"⟩ true).1 = .ok q2 ∧
      (robotCancelRequeue emptyQueue ⟨7, "VIP", "PROCESSING"⟩ true).2 =
        { id := 7, type := "VIP", status := "PENDING" } ∧
      (if Order.type ⟨7, "VIP", "PROCESSING"⟩ = "VIP" then getVip q2 "left"
       else getNormal q2 "left") =
        .ok (some (⟨7, "VIP", "PENDING"⟩, emptyQueue)) ∧
      Order.status ⟨7, "VIP", "PENDING"⟩ = "PENDING" :=
  cancel_head_requeue_roundtrip emptyQueue ⟨7, "VIP", "PROCESSING"⟩ (Or.inl rfl)

/-! ## Claim C5: invalid-argument rejection (corrected)

`put` does reject an invalid insertion end or an invalid priority class
synchronously with the queue untouched (an error result carries no new
queue).  But the class-specific variants `put_vip` / `put_normal` first
overwrite the order's class with their own class (the source comment says
so explicitly), so they silently coerce any incoming class — valid or
not — to a valid one.  The claim that a priority class is never silently
coerced by any enqueue operation is therefore false. -/

/-- C5 counterexample: `put_vip` on an order whose class is the invalid
string `"BOGUS"` does not fail; it silently coerces the class to `"VIP"`
and inserts the order, contradicting the claim that such a call is
rejected synchronously with the queue unchanged. -/
theorem putVip_coerces_counterexample :
    putVip emptyQueue ⟨1, "BOGUS", "PENDING"⟩ "right" =
      .ok { vip := [⟨1, "VIP", "PENDING"⟩], normal := [] } := by
  simp [putVip, put, emptyQueue]

/-- C5 amended: `put` rejects an unknown insertion end, and an unknown
priority class, synchronously with an error (the queue is untouched: an
error result carries no queue); `put_vip` and `put_normal` do not reject
classes — each first overwrites the order's class with its own target
class and then delegates to `put`, so only an invalid end can make them
fail. -/
theorem put_validation_amended :
    (∀ (q : PendingQueue) (o : Order) (e : String), ¬(e = "left" ∨ e = "right") →
      put q o e = .error "end must be left or right") ∧
    (∀ (q : PendingQueue) (o : Order) (e : String), (e = "left" ∨ e = "right") →
      ¬(o.type = "VIP" ∨ o.type = "NORMAL") →
      put q o e = .error "order.type must be VIP or NORMAL") ∧
    (∀ (q : PendingQueue) (o : Order) (e : String),
      putVip q o e = put q { o with type := "VIP" } e) ∧
    (∀ (q : PendingQueue) (o : Order) (e : String),
      putNormal q o e = put q { o with type := "NORMAL" } e) := by
  refine ⟨?_, ?_, fun _ _ _ => rfl, fun _ _ _ => rfl⟩
  · intro q o e he
    simp [put, he]
  · intro q o e he ht
    simp [put, he, ht]

/-- C5 witness: the amended validation at concrete invalid inputs. -/
theorem put_validation_amended_witness :
    put emptyQueue ⟨1, "VIP", "PENDING"⟩ "top" = .error "end must be left or right" ∧
    put emptyQueue ⟨1, "BOGUS", "PENDING"⟩ "right" = .error "order.type must be VIP or NORMAL" :=
  ⟨put_validation_amended.1 emptyQueue ⟨1, "VIP", "PENDING"⟩ "top" (by simp),
   put_validation_amended.2.1 emptyQueue ⟨1, "BOGUS", "PENDING"⟩ "right" (by simp) (by simp)⟩

/-! ## Claim C7: unknown command leaves the core untouched -/

/-- C7: for any input line whose trimmed, lowercased form is not a
recognized command, `handle_cmd` returns the manager unchanged (queue,
workers, id counters and completed list included) together with a failure
result that carries an error message and the usage text. -/
theorem unknown_cmd_preserves_state (m : Manager) (line : String)
    (h : lowerStr (trimStr line) ∉ recognizedCmds) :
    (handleCmd m line).1 = m ∧
    (handleCmd m line).2.ok = false ∧
    ((handleCmd m line).2.error).isSome = true ∧
    (handleCmd m line).2.usage = some helpText := by
  simp only [recognizedCmds, List.mem_cons, List.not_mem_nil, or_false, not_or] at h
  obtain ⟨h1, h2, h3, h4, h5, h6, h7, h8, h9, h10, h11, h12, h13, h14, h15, h16⟩ := h
  by_cases h0 : lowerStr (trimStr line) = ""
  · simp [handleCmd, h0]
  · simp [handleCmd, h0, h1, h2, h3, h4, h5, h6, h7, h8, h9, h10, h11, h12, h13, h14, h15, h16]

/-- C7 witness: a concrete unrecognized command. -/
theorem unknown_cmd_preserves_state_witness :
    (handleCmd initManager "make-coffee").1 = initManager ∧
    (handleCmd initManager "make-coffee").2.ok = false ∧
    ((handleCmd initManager "make-coffee").2.error).isSome = true ∧
    (handleCmd initManager "make-coffee").2.usage = some helpText :=
  unknown_cmd_preserves_state initManager "make-coffee" (by decide)

/-! ## Claim C10: removing a worker when none exist -/

/-- C10: with an empty worker set, `remove_bot` returns `none` and
leaves the whole manager state (queue, counters, completed list)
unchanged, and the `-bot` command then yields a failure result carrying
an error message rather than crashing. -/
theorem remove_bot_empty_noop (m : Manager) (h : m.bots = []) :
    removeBotM m = (m, none) ∧
    handleCmd m "-bot" =
      (m, { ok := false, cmd := some "-bot", error := some "no bot to remove" }) := by
  have hr : removeBotM m = (m, none) := by
    simp [removeBotM, h]
  refine ⟨hr, ?_⟩
  have htrim : lowerStr (trimStr "-bot") = "-bot" := by decide
  simp [handleCmd, htrim, hr]

/-- C10 witness: the fresh manager has no bots. -/
theorem remove_bot_empty_noop_witness :
    removeBotM initManager = (initManager, none) ∧
    handleCmd initManager "-bot" =
      (initManager, { ok := false, cmd := some "-bot", error := some "no bot to remove" }) :=
  remove_bot_empty_noop initManager rfl

/-! ## Claim C3: FIFO within a priority class

We run an arbitrary sequence of tail-enqueues and non-blocking
priority dequeues against the queue and show that an order `A` sitting
ahead of `B` in the same class deque is always dequeued before `B`. -/

theorem put_right_eq_returnToTail (q : PendingQueue) (o : Order) :
    put q o "right" = returnToTail q o := by
  simp [put, returnToTail]

theorem fifoAux (A B : Order) (hAB : A ≠ B) (c : Bool) :
    ∀ (ops : List QOp) (q : PendingQueue),
      (∀ o, QOp.putTail o ∈ ops → o ≠ B) →
      [A, B].Sublist (classSeq c q) →
      (classSeq c q).countP (fun o => o == B) ≤ 1 →
      B ∉ otherSeq c q →
      B ∈ (runOps q ops).2 → [A, B].Sublist (runOps q ops).2 := by
  intro ops
  induction ops with
  | nil =>
    intro q _ _ _ _ hmem
    simp [runOps] at hmem
  | cons op ops ih =>
    intro q hput hsub hcount hother
    cases op with
    | putTail o =>
      have hoB : o ≠ B := hput o (List.mem_cons_self _ _)
      have hput2 : ∀ x, QOp.putTail x ∈ ops → x ≠ B := fun x hx => hput x (List.mem_cons_of_mem _ hx)
      cases hpq : put q o "right" with
      | error msg =>
        have hrun : runOps q (QOp.putTail o :: ops) = runOps q ops := by
          simp [runOps, stepOp, hpq]
        rw [hrun]
        exact ih q hput2 hsub hcount hother
      | ok q2 =>
        have hrun : runOps q (QOp.putTail o :: ops) = runOps q2 ops := by
          simp [runOps, stepOp, hpq]
        rw [hrun]
        rw [put_right_eq_returnToTail] at hpq
        have hcls : classSeq c q2 = classSeq c q ∨ classSeq c q2 = classSeq c q ++ [o] := by
          rcases returnToTail_ok_cases hpq with ⟨_, rfl⟩ | ⟨_, rfl⟩ <;> cases c <;>
            simp [classSeq]
        have hoth : otherSeq c q2 = otherSeq c q ∨ otherSeq c q2 = otherSeq c q ++ [o] := by
          rcases returnToTail_ok_cases hpq with ⟨_, rfl⟩ | ⟨_, rfl⟩ <;> cases c <;>
            simp [otherSeq]
        have hsub2 : [A, B].Sublist (classSeq c q2) := by
          rcases hcls with heq | heq <;> rw [heq]
          · exact hsub
          · exact hsub.trans (List.sublist_append_left _ _)
        have hcount2 : (classSeq c q2).countP (fun x => x == B) ≤ 1 := by
          rcases hcls with heq | heq <;> rw [heq]
          · exact hcount
          · simpa [List.countP_append, List.countP_cons, hoB] using hcount
        have hother2 : B ∉ otherSeq c q2 := by
          rcases hoth with heq | heq <;> rw [heq]
          · exact hother
          · simp [hother, Ne.symm hoB]
        exact ih q2 hput2 hsub2 hcount2 hother2
    | deq =>
      have hput2 : ∀ x, QOp.putTail x ∈ ops → x ≠ B := fun x hx => hput x (List.mem_cons_of_mem _ hx)
      cases hg : getNext q with
      | none =>
        have hrun : runOps q (QOp.deq :: ops) = runOps q ops := by
          simp [runOps, stepOp, hg]
        rw [hrun]
        exact ih q hput2 hsub hcount hother
      | some p =>
        obtain ⟨o, q2⟩ := p
        have hrun : runOps q (QOp.deq :: ops) =
            ((runOps q2 ops).1, o :: (runOps q2 ops).2) := by
          simp [runOps, stepOp, hg]
        rw [hrun]
        rcases getNext_cases hg with ⟨rest, hv, rfl⟩ | ⟨rest, hv, hn, rfl⟩
        · -- the VIP head was popped
          cases c with
          | true =>
            -- the popped deque is the class of A and B
            have hclsq : classSeq true q = o :: rest := by simp [classSeq, hv]
            rw [hclsq] at hsub hcount
            cases hsub with
            | cons₂ _ htail =>
              -- the popped head is A itself: every later dequeue of B is behind it
              intro hmem
              rcases List.mem_cons.mp hmem with hBo | hBrest
              · exact absurd hBo.symm hAB
              · exact List.Sublist.cons₂ _ (List.singleton_sublist.mpr hBrest)
            | cons _ htail =>
              have hoB : o ≠ B := by
                intro h
                have hBmem : B ∈ rest := htail.subset (by simp)
                have h1 : 0 < rest.countP (fun x => x == B) :=
                  List.countP_pos_iff.mpr ⟨B, hBmem, by simp⟩
                have h3 : (o :: rest).countP (fun x => x == B) =
                    rest.countP (fun x => x == B) + 1 := by
                  rw [List.countP_cons]
                  simp [h]
                omega
              have hmono : rest.countP (fun x => x == B) ≤
                  (o :: rest).countP (fun x => x == B) := by
                rw [List.countP_cons]
                exact Nat.le_add_right _ _
              have hcount2 : rest.countP (fun x => x == B) ≤ 1 := le_trans hmono hcount
              have hih := ih { q with vip := rest } hput2
                (by simpa [classSeq] using htail)
                (by simpa [classSeq] using hcount2)
                (by simpa [otherSeq] using hother)
              intro hmem
              rcases List.mem_cons.mp hmem with hBo | hBrest
              · exact absurd hBo.symm hoB
              · exact List.Sublist.cons _ (hih hBrest)
          | false =>
            -- the popped head belongs to the other class
            have hothq : otherSeq false q = o :: rest := by simp [otherSeq, hv]
            rw [hothq] at hother
            have hoB : o ≠ B := fun h => hother (by simp [h])
            have hih := ih { q with vip := rest } hput2
              (by simpa [classSeq] using hsub)
              (by simpa [classSeq] using hcount)
              (by
                simp only [otherSeq, if_neg Bool.false_ne_true]
                intro hBrest
                exact hother (List.mem_cons_of_mem _ hBrest))
            intro hmem
            rcases List.mem_cons.mp hmem with hBo | hBrest
            · exact absurd hBo.symm hoB
            · exact List.Sublist.cons _ (hih hBrest)
        · -- the Normal head was popped (the VIP deque is empty)
          cases c with
          | true =>
            have hclsq : classSeq true q = [] := by simp [classSeq, hv]
            rw [hclsq] at hsub
            exact absurd (List.sublist_nil.mp hsub) (by simp)
          | false =>
            have hclsq : classSeq false q = o :: rest := by simp [classSeq, hn]
            rw [hclsq] at hsub hcount
            cases hsub with
            | cons₂ _ htail =>
              intro hmem
              rcases List.mem_cons.mp hmem with hBo | hBrest
              · exact absurd hBo.symm hAB
              · exact List.Sublist.cons₂ _ (List.singleton_sublist.mpr hBrest)
            | cons _ htail =>
              have hoB : o ≠ B := by
                intro h
                have hBmem : B ∈ rest := htail.subset (by simp)
                have h1 : 0 < rest.countP (fun x => x == B) :=
                  List.countP_pos_iff.mpr ⟨B, hBmem, by simp⟩
                have h3 : (o :: rest).countP (fun x => x == B) =
                    rest.countP (fun x => x == B) + 1 := by
                  rw [List.countP_cons]
                  simp [h]
                omega
              have hmono : rest.countP (fun x => x == B) ≤
                  (o :: rest).countP (fun x => x == B) := by
                rw [List.countP_cons]
                exact Nat.le_add_right _ _
              have hcount2 : rest.countP (fun x => x == B) ≤ 1 := le_trans hmono hcount
              have hih := ih { q with normal := rest } hput2
                (by simpa [classSeq] using htail)
                (by simpa [classSeq] using hcount2)
                (by simp [otherSeq, hv])
              intro hmem
              rcases List.mem_cons.mp hmem with hBo | hBrest
              · exact absurd hBo.symm hoB
              · exact List.Sublist.cons _ (hih hBrest)

/-- C3: FIFO within a class.  If `A` sits ahead of `B` in the deque of
their common priority class (with `B` nowhere else in the queue, as the
orders are distinct), then under any further sequence of tail-enqueues of
other orders and priority dequeues — no head-reinsertion —, whenever `B`
has been dequeued, `A` was dequeued before it (`[A, B]` is a sublist of
the chronological output). -/
theorem fifo_within_class (A B : Order) (c : Bool) (q : PendingQueue) (ops : List QOp)
    (hAB : A ≠ B)
    (hsub : [A, B].Sublist (classSeq c q))
    (hcount : (classSeq c q).countP (fun o => o == B) ≤ 1)
    (hother : B ∉ otherSeq c q)
    (hput : ∀ o, QOp.putTail o ∈ ops → o ≠ B)
    (hmem : B ∈ (runOps q ops).2) :
    [A, B].Sublist (runOps q ops).2 :=
  fifoAux A B hAB c ops q hput hsub hcount hother hmem

/-- C3 witness: two VIP orders with a third order enqueued and everything
dequeued; the first stays ahead of the second in the output. -/
theorem fifo_within_class_witness :
    [(⟨1, "VIP", "PENDING"⟩ : Order), ⟨2, "VIP", "PENDING"⟩].Sublist
      (runOps { vip := [⟨1, "VIP", "PENDING"⟩, ⟨2, "VIP", "PENDING"⟩], normal := [] }
        [QOp.putTail ⟨3, "NORMAL", "PENDING"⟩, QOp.deq, QOp.deq, QOp.deq]).2 :=
  fifo_within_class ⟨1, "VIP", "PENDING"⟩ ⟨2, "VIP", "PENDING"⟩ true
    { vip := [⟨1, "VIP", "PENDING"⟩, ⟨2, "VIP", "PENDING"⟩], normal := [] }
    [QOp.putTail ⟨3, "NORMAL", "PENDING"⟩, QOp.deq, QOp.deq, QOp.deq]
    (by decide) (by decide) (by decide) (by decide)
    (by
      intro o ho
      simp only [List.mem_cons, List.not_mem_nil, or_false] at ho
      rcases ho with h | h | h | h
      · injection h with h2
        subst h2
        decide
      · exact QOp.noConfusion h
      · exact QOp.noConfusion h
      · exact QOp.noConfusion h)
    (by decide)

end OrderSystem
